import Mathlib

/-!
Verification of the cam-formatting-suite toolkit against its specification.

The development shallowly embeds the Rust sources:
* `src/bin/femaptool/src/tmx.rs` (TMX map transformer),
* `src/tilemage/src/lib.rs` (tile/palette engine, current crate),
* `src/lib/src/gbagfx.rs` (tile/palette engine, older crate),
and models the GBA-LZ77 codec from the specification (its crate `gbalz77`
is consumed externally and its sources are not in the repository).

Machine integers are embedded as `Nat` with explicit `% 2^w` where wrapping
matters; fallible Rust code returns `Except`; iterators are embedded as
fuel-indexed structural recursions mirroring each `next()` method, with the
fuel chosen large enough (proved or evaluated where needed).
-/

deriving instance DecidableEq for Except

namespace Femaptool

/-- A TMX layer as exposed by the external `tiled` parser: a name, the keys of
its property map, whether it is a finite tile layer, and (for finite tile
layers) a `width × height` row-major grid of optional gids. -/
structure TmxLayer where
  name : String
  props : List String
  finite : Bool
  width : Nat
  height : Nat
  cells : List (Option Nat)
deriving DecidableEq

/-- Errors of the map transformer.  `usizeUnderflow` models the Rust `usize`
subtraction overflow panic (debug profile) in `make_map_change`. -/
inductive FemapErr where
  | noMainLayer
  | multipleMainLayers
  | tileIdOverflow
  | usizeUnderflow
deriving DecidableEq

/-- `FiniteTileLayer::get_tile` of the `tiled` crate: `none` outside the grid
or on an empty cell. -/
def getTile (L : TmxLayer) (x y : Nat) : Option Nat :=
  if x < L.width ∧ y < L.height then L.cells.getD (y * L.width + x) none else none

/-- `TileIterator::next` from `tmx.rs`, as a fuel-indexed recursion.  The
source first wraps `x` past `width`, then stops once `y` reaches `height`,
then yields `(x + base_x, y + base_y, get_tile(..))` and advances `x`. -/
def tileIterF (L : TmxLayer) (bx cy w h : Nat) : Nat → Nat → Nat → List (Nat × Nat × Option Nat)
  | 0, _, _ => []
  | fuel+1, x, y =>
    let x2 := if w ≤ x then 0 else x
    let y2 := if w ≤ x then y + 1 else y
    if h ≤ y2 then []
    else (x2 + bx, y2 + cy, getTile L (x2 + bx) (y2 + cy)) ::
      tileIterF L bx cy w h fuel (x2 + 1) y2

/-- `TileIterator::all`: iterate the whole layer.  The fuel bounds the number
of `next` calls: at most one call per cell plus one wrap per row. -/
def tileIterAll (L : TmxLayer) : List (Nat × Nat × Option Nat) :=
  tileIterF L 0 0 L.width L.height ((L.height + 2) * (L.width + 2)) 0 0

/-- `TileIterator::window`: iterate a `width × height` window at
`(base_x, base_y)`. -/
def tileIterWindow (L : TmxLayer) (bx cy w h : Nat) : List (Nat × Nat × Option Nat) :=
  tileIterF L bx cy w h ((h + 2) * (w + 2)) 0 0

/-- `gid_to_tile` from `tmx.rs`.  The source computes `u16::try_from(gid * 4)`
with `gid : u32`: the 32-bit product wraps modulo `2^32` (release-profile
semantics) and the conversion fails exactly when the wrapped product does not
fit in 16 bits. -/
def gidToTile : Option Nat → Except FemapErr Nat
  | none => Except.ok 0
  | some g =>
    if (g * 4) % 4294967296 < 65536 then Except.ok ((g * 4) % 4294967296)
    else Except.error FemapErr.tileIdOverflow

/-- Modelled from the spec: `MapChange` lives in `femap.rs`, which is not in
`src/`; per §3 it is the record `{ base_x, base_y, width, height, tiles }`. -/
structure MapChange where
  baseX : Nat
  baseY : Nat
  width : Nat
  height : Nat
  tiles : List Nat
deriving DecidableEq

/-- `make_main_tile_layer`: full-layer iteration, each gid through
`gid_to_tile`, short-circuiting on the first error. -/
def makeMainTileLayer (L : TmxLayer) : Except FemapErr (List Nat) :=
  (tileIterAll L).mapM (fun it => gidToTile it.2.2)

/-- `make_map_change` from `tmx.rs`: fold the bounding box of the non-empty
cells starting from `(xmin, xmax, ymin, ymax) = (width, 0, height, 0)`, then
compute `xmax - xmin + 1` and `ymax - ymin + 1` (the `usize` subtraction
panics on underflow, modelled as `usizeUnderflow`), then serialize the
window.  `MapChange::new` is modelled from the spec as the plain record
constructor (`femap.rs` is not in `src/`). -/
def makeMapChange (L : TmxLayer) : Except FemapErr MapChange :=
  let b := (tileIterAll L).foldl
    (fun acc it =>
      match acc, it with
      | (xn, xx, yn, yx), (x, y, some _) => (min x xn, max x xx, min y yn, max y yx)
      | acc, _ => acc)
    (L.width, 0, L.height, 0)
  match b with
  | (xmin, xmax, ymin, ymax) =>
    if xmax < xmin then Except.error FemapErr.usizeUnderflow
    else if ymax < ymin then Except.error FemapErr.usizeUnderflow
    else
      (tileIterWindow L xmin ymin (xmax - xmin + 1) (ymax - ymin + 1)).mapM
          (fun it => gidToTile it.2.2) |>.map
        (fun tiles => ⟨xmin, ymin, xmax - xmin + 1, ymax - ymin + 1, tiles⟩)

/-- ASCII lowering, standing in for Rust `str::to_lowercase` (the layer names
involved are ASCII). -/
def charLower (c : Char) : Char :=
  if 'A' ≤ c ∧ c ≤ 'Z' then Char.ofNat (c.toNat + 32) else c

/-- Lowercase a string character-wise. -/
def asciiLower (s : String) : String := String.mk (s.toList.map charLower)

/-- The explicit-main test of `process_femap`: the layer's name is `main`
case-insensitively, or some property key is. -/
def layerIsMain (l : TmxLayer) : Bool :=
  asciiLower l.name == "main" || l.props.any (fun s => asciiLower s == "main")

/-- The tri-state scanned by `process_femap`.  `found` also carries the main
layer's dimensions (the source keeps them in separate `width`/`height`
variables). -/
inductive MainState where
  | notFound
  | candidate (name : String) (l : TmxLayer)
  | found (tiles : List Nat) (w h : Nat)
deriving DecidableEq

/-- Modelled from the spec: the primary map plus the map-change table (§3,
§6); `Map::new` lives in the absent `femap.rs` and is modelled as the record
constructor.  Properties are a thin pass-through (§3) and are omitted. -/
structure FEMap where
  width : Nat
  height : Nat
  changes : List (String × MapChange)
  tiles : List Nat
deriving DecidableEq

/-- The layer loop of `process_femap`, transcribed arm by arm.  Note the
`candidate` arm: the source pushes the stored candidate as a map change,
falls through to push the current layer as well, and leaves the state
unchanged. -/
def processLoop : List TmxLayer → MainState → List (String × MapChange) →
    Except FemapErr (MainState × List (String × MapChange))
  | [], st, mc => Except.ok (st, mc)
  | l :: rest, st, mc =>
    if l.finite = false then processLoop rest st mc
    else if layerIsMain l then
      match st with
      | MainState.found _ _ _ => Except.error FemapErr.multipleMainLayers
      | _ =>
        match makeMainTileLayer l with
        | Except.error e => Except.error e
        | Except.ok tiles => processLoop rest (MainState.found tiles l.width l.height) mc
    else
      match st with
      | MainState.notFound => processLoop rest (MainState.candidate l.name l) mc
      | MainState.found t w h =>
        match makeMapChange l with
        | Except.error e => Except.error e
        | Except.ok c => processLoop rest (MainState.found t w h) (mc ++ [(l.name, c)])
      | MainState.candidate n cl =>
        match makeMapChange cl with
        | Except.error e => Except.error e
        | Except.ok c1 =>
          match makeMapChange l with
          | Except.error e => Except.error e
          | Except.ok c2 =>
            processLoop rest (MainState.candidate n cl) (mc ++ [(n, c1), (l.name, c2)])

/-- `process_femap` from `tmx.rs`: run the loop, then resolve the terminal
state (`NotFound` fails, a terminal candidate is promoted to primary). -/
def processFEMap (layers : List TmxLayer) : Except FemapErr FEMap :=
  match processLoop layers MainState.notFound [] with
  | Except.error e => Except.error e
  | Except.ok (MainState.notFound, _) => Except.error FemapErr.noMainLayer
  | Except.ok (MainState.candidate _ cl, mc) =>
    match makeMainTileLayer cl with
    | Except.error e => Except.error e
    | Except.ok tiles => Except.ok ⟨cl.width, cl.height, mc, tiles⟩
  | Except.ok (MainState.found tiles w h, mc) => Except.ok ⟨w, h, mc, tiles⟩

/-- A 1×1 finite tile layer named `a` with one non-empty cell. -/
def layerA : TmxLayer := ⟨"a", [], true, 1, 1, [some 1]⟩

/-- A 1×1 finite tile layer named `b` with one non-empty cell. -/
def layerB : TmxLayer := ⟨"b", [], true, 1, 1, [some 1]⟩

/-- A 1×1 finite tile layer named `c` with one non-empty cell. -/
def layerC : TmxLayer := ⟨"c", [], true, 1, 1, [some 1]⟩

/-- A 1×1 explicit main layer. -/
def layerMain : TmxLayer := ⟨"main", [], true, 1, 1, [some 1]⟩

/-- A 2×2 finite tile layer with no non-empty cells. -/
def emptyLayer2x2 : TmxLayer := ⟨"e", [], true, 2, 2, [none, none, none, none]⟩

/-- Claim C9, counterexample: for `g = 2^30` the product `g * 4` does not fit
in 16 bits, yet `gid_to_tile` reports no overflow: the 32-bit multiplication
wraps to `0` and the gid is accepted as tile value `0`. -/
theorem gidToTile_overflow_cex :
    2 ^ 16 ≤ 2 ^ 30 * 4 ∧ gidToTile (some (2 ^ 30)) = Except.ok 0 :=
  ⟨by norm_num, by decide⟩

/-- Claim C9, amended: `gid_to_tile` maps `None` to tile `0` and `Some g` to
`g * 4` computed in wrapping 32-bit arithmetic, i.e. `4 * (g % 2^30)`; it
fails with the overflow diagnostic exactly when the wrapped product does not
fit in 16 bits, i.e. when `g % 2^30 ≥ 2^14`.  In particular gids `g ≥ 2^30`
whose wrapped product is below `2^16` are accepted, not rejected. -/
theorem gidToTile_spec :
    gidToTile none = Except.ok 0 ∧
    (∀ g : Nat, g % 2 ^ 30 < 2 ^ 14 → gidToTile (some g) = Except.ok (4 * (g % 2 ^ 30))) ∧
    (∀ g : Nat, 2 ^ 14 ≤ g % 2 ^ 30 → gidToTile (some g) = Except.error FemapErr.tileIdOverflow) := by
  refine ⟨rfl, ?_, ?_⟩
  · intro g hg
    have h1 : (g * 4) % 4294967296 = 4 * (g % 1073741824) := by omega
    simp only [gidToTile, h1]
    rw [if_pos (by omega)]
    norm_num
  · intro g hg
    have h1 : (g * 4) % 4294967296 = 4 * (g % 1073741824) := by omega
    simp only [gidToTile, h1]
    rw [if_neg (by omega)]

/-- Witness for `gidToTile_spec` at the concrete gids `5` (accepted, tile
`20`) and `16384` (rejected with the overflow diagnostic). -/
theorem gidToTile_spec_witness :
    (5 % 2 ^ 30 < 2 ^ 14 ∧ gidToTile (some 5) = Except.ok (4 * (5 % 2 ^ 30))) ∧
    (2 ^ 14 ≤ 16384 % 2 ^ 30 ∧ gidToTile (some 16384) = Except.error FemapErr.tileIdOverflow) :=
  ⟨⟨by decide, gidToTile_spec.2.1 5 (by decide)⟩,
   ⟨by decide, gidToTile_spec.2.2 16384 (by decide)⟩⟩

/-- Claim C5: on a secondary layer with no non-empty cells the bounding-box
fold leaves `xmax = 0 < xmin = width`, and `make_map_change` then evaluates
`xmax - xmin + 1`, which underflows `usize` (a panic in debug builds, a wrap
to an enormous width in release builds) instead of skipping the layer or
surfacing a defined diagnostic.  The underflow is modelled as the
`usizeUnderflow` error value. -/
theorem makeMapChange_empty_underflow :
    makeMapChange emptyLayer2x2 = Except.error FemapErr.usizeUnderflow := by decide

/-- Claim C4: the scanning loop contradicts the claimed state machine.  With
layers `[a, main]` the candidate `a` is silently discarded when the explicit
main layer arrives: the resulting map-change list is empty although `a` is a
non-primary finite tile layer.  With layers `[a, b, c]` (no explicit main)
the state never advances past `Candidate(a)`, so `a` — the eventual primary —
is re-emitted as a map change before each subsequent layer, giving the name
list `[a, b, a, c]` instead of `[b, c]`. -/
theorem processFEMap_candidate_bug :
    processFEMap [layerA, layerMain] = Except.ok ⟨1, 1, [], [4]⟩ ∧
    (processFEMap [layerA, layerB, layerC]).map
        (fun m => (m.changes.map Prod.fst, m.width)) =
      Except.ok (["a", "b", "a", "c"], 1) := by decide

end Femaptool

namespace NatBits

/-- Bitwise-or of a value below `2^k` with a multiple of `2^k` is their sum. -/
theorem or_add_two_pow (k : Nat) : ∀ x y : Nat, x < 2 ^ k → x ||| y * 2 ^ k = x + y * 2 ^ k := by
  induction k with
  | zero =>
    intro x y hx
    have hx0 : x = 0 := by omega
    subst hx0
    simp [Nat.zero_or]
  | succ k ih =>
    intro x y hx
    have hb : Nat.bit (x.testBit 0) (x >>> 1) = x := Nat.bit_testBit_zero_shiftRight_one x
    have hy : y * 2 ^ (k + 1) = Nat.bit false (y * 2 ^ k) := by
      simp [Nat.bit_val, pow_succ]
      ring
    have hx2 : x >>> 1 < 2 ^ k := by
      rw [Nat.shiftRight_one]
      rw [pow_succ] at hx
      omega
    conv_lhs => rw [← hb, hy]
    rw [Nat.lor_bit, ih _ y hx2]
    rw [Nat.bit_val, Bool.or_false, Nat.shiftRight_one, Nat.testBit_zero]
    have e2 : y * 2 ^ (k + 1) = y * 2 ^ k * 2 := by ring
    rw [e2]
    rcases Nat.mod_two_eq_zero_or_one x with h | h <;> rw [h] <;> simp <;> omega

/-- Masking with `0xF` is reduction modulo 16. -/
theorem and15 (x : Nat) : x &&& 15 = x % 16 := by
  have h := Nat.and_pow_two_sub_one_eq_mod x 4
  norm_num at h
  exact h

/-- Masking with `0x1F` is reduction modulo 32. -/
theorem and31 (x : Nat) : x &&& 31 = x % 32 := by
  have h := Nat.and_pow_two_sub_one_eq_mod x 5
  norm_num at h
  exact h

/-- Masking with `0xFF` is reduction modulo 256. -/
theorem and255 (x : Nat) : x &&& 255 = x % 256 := by
  have h := Nat.and_pow_two_sub_one_eq_mod x 8
  norm_num at h
  exact h

end NatBits

namespace ListHelpers

/-- Length of a `flatMap` whose pieces all have the same length. -/
theorem length_flatMap_const {α β : Type} (l : List α) (F : α → List β) (w : Nat)
    (h : ∀ a ∈ l, (F a).length = w) : (l.flatMap F).length = l.length * w := by
  induction l with
  | nil => simp
  | cons a t ih =>
    simp only [List.flatMap_cons, List.length_append, List.length_cons]
    rw [h a (List.mem_cons_self a t), ih (fun x hx => h x (List.mem_cons_of_mem a hx))]
    ring

/-- Indexing into a rectangular row-major enumeration. -/
theorem flatMap_range_map_getElem? {α : Type} (w : Nat) (f : Nat → Nat → α) :
    ∀ (h r c : Nat), r < h → c < w →
    ((List.range h).flatMap (fun y => (List.range w).map (f y)))[r * w + c]? = some (f r c) := by
  intro h
  induction h with
  | zero => intro r c hr; omega
  | succ n ih =>
    intro r c hr hc
    rw [List.range_succ, List.flatMap_append]
    have hlen : ((List.range n).flatMap (fun y => (List.range w).map (f y))).length = n * w := by
      have h0 := length_flatMap_const (List.range n) (fun y => (List.range w).map (f y)) w
        (by intro a _; simp)
      simpa using h0
    rw [List.getElem?_append]
    by_cases hrn : r < n
    · rw [if_pos ?side]
      · exact ih r c hrn hc
      · rw [hlen]
        have h1 : (r + 1) * w ≤ n * w := Nat.mul_le_mul_right w (by omega)
        have h2 : r * w + c < (r + 1) * w := by
          rw [Nat.succ_mul]
          omega
        omega
    · have hreq : r = n := by omega
      subst hreq
      rw [if_neg ?side2]
      · rw [hlen]
        have hidx : r * w + c - r * w = c := by omega
        rw [hidx]
        simp only [List.flatMap_cons, List.flatMap_nil, List.append_nil]
        rw [List.getElem?_map, List.getElem?_range hc]
        rfl
      · rw [hlen]
        omega

end ListHelpers

namespace Tilemage

/-- An RGB color with 8-bit channels, `Color` from `tilemage/src/lib.rs` and
`lib/src/gbagfx.rs`. -/
structure Color where
  r : Nat
  g : Nat
  b : Nat
deriving DecidableEq

/-- `Color::from_16bit`: unpack a 15-bit word, left-shifting each 5-bit field
by 3. -/
def colorFrom16bit (p : Nat) : Color :=
  ⟨(p &&& 31) <<< 3, ((p >>> 5) &&& 31) <<< 3, ((p >>> 10) &&& 31) <<< 3⟩

/-- `Color::to_16bit`: `(b5 << 10) | (g5 << 5) | r5` with `c5 = c8 >> 3`. -/
def colorTo16bit (c : Color) : Nat :=
  ((c.b >>> 3) <<< 10) ||| ((c.g >>> 3) <<< 5) ||| (c.r >>> 3)

/-- `Color::to_le_bytes`: low byte first. -/
def colorToLeBytes (c : Color) : Nat × Nat :=
  (colorTo16bit c &&& 255, (colorTo16bit c >>> 8) &&& 255)

/-- `Color::from_le_bytes`. -/
def colorFromLeBytes (l r : Nat) : Color := colorFrom16bit ((r <<< 8) ||| l)

/-- Uppercase hexadecimal digit character for a nibble. -/
def upHexDigit (n : Nat) : Char :=
  if n < 10 then Char.ofNat (48 + n) else Char.ofNat (55 + n)

/-- Rendering of one byte by the `{:02X}` format used in `Display for Color`
(both operands are below 256, so exactly two digits appear). -/
def hexByte (b : Nat) : List Char := [upHexDigit (b / 16), upHexDigit (b % 16)]

/-- `Display for Color`: the two little-endian bytes, each as `{:02X}`. -/
def displayColor (c : Color) : List Char :=
  hexByte (colorToLeBytes c).1 ++ hexByte (colorToLeBytes c).2

/-- `Display for Palette`: concatenation of the colors' renderings. -/
def displayPalette (p : List Color) : List Char := p.flatMap displayColor

/-- `char::is_ascii_hexdigit` together with the digit's value. -/
def hexVal (c : Char) : Option Nat :=
  if '0' ≤ c ∧ c ≤ '9' then some (c.toNat - 48)
  else if 'a' ≤ c ∧ c ≤ 'f' then some (c.toNat - 87)
  else if 'A' ≤ c ∧ c ≤ 'F' then some (c.toNat - 55)
  else none

/-- `u16::from_str_radix(s, 16)` restricted to the 4-character groups built
by `parse_palette_string`: an optional leading `+`, then hex digits (a `-`
sign fails on unsigned types).  Overflow cannot occur with at most four
digits, so no overflow branch is modelled. -/
def fromStrRadix16 (cs : List Char) : Option Nat :=
  let ds := if cs.head? = some '+' then cs.tail else cs
  if ds.isEmpty then none
  else ds.foldl
    (fun acc c =>
      match acc, hexVal c with
      | some v, some d => some (v * 16 + d)
      | _, _ => none)
    (some 0)

/-- `Itertools::tuples::<(_,_,_,_)>`: consecutive 4-element groups, dropping
a trailing incomplete group. -/
def tuples4 : List Char → List (Char × Char × Char × Char)
  | a :: b :: c :: d :: rest => (a, b, c, d) :: tuples4 rest
  | _ => []

/-- `collect::<Option<Vec<_>>>`. -/
def allSome {α : Type} : List (Option α) → Option (List α)
  | [] => some []
  | some a :: t => (allSome t).map (fun l => a :: l)
  | none :: _ => none

/-- One 4-character group `a,b,c,d` of `parse_palette_string`, decoded as the
word with hex digits `c,d,a,b` and unpacked by `Color::from_16bit`. -/
def parseGroup (t : Char × Char × Char × Char) : Option Color :=
  match t with
  | (a, b, c, d) => (fromStrRadix16 [c, d, a, b]).map colorFrom16bit

/-- `parse_palette_string` from `tilemage/src/lib.rs`: require length 64,
require that *some* character is a hex digit (the source's check is inverted
relative to its comment: it rejects only all-non-hex strings), then decode
every 4-character group. -/
def parsePaletteString (s : List Char) : Option (List Color) :=
  if s.length ≠ 64 then none
  else if ¬ s.any (fun c => (hexVal c).isSome) then none
  else allSome ((tuples4 s).map parseGroup)

/-- Diagnostics of the tilemage crate's tile engine. -/
inductive TileErr where
  | tooManyColors
  | unknownColor
  | badDimensions
  | dimensionMismatch
  | badColorIndex
deriving DecidableEq

/-- Diagnostics of the older gbagfx crate. -/
inductive GfxErr where
  | tooManyColors
  | unknownColor
deriving DecidableEq

/-- The indexed image `GBAImage { palette, width, height, data }`, `data`
row-major. -/
structure GBAImage where
  palette : List Color
  width : Nat
  height : Nat
  data : List Nat
deriving DecidableEq

/-- `GBAImage::validate` from `tilemage/src/lib.rs`: the three checks in
source order — buffer size, dimensions (width *and* height not divisible by
8 is the failure), color indices above `0xF`.  There is no palette-length
check here. -/
def validateImage (img : GBAImage) : Except TileErr Unit :=
  if img.data.length ≠ img.width * img.height then Except.error TileErr.dimensionMismatch
  else if img.width % 8 ≠ 0 ∧ img.height % 8 ≠ 0 then Except.error TileErr.badDimensions
  else if (img.data.find? (fun idx => 15 < idx)).isSome then Except.error TileErr.badColorIndex
  else Except.ok ()

/-- `Palette::validate` from `lib/src/gbagfx.rs`: only the palette length is
checked. -/
def gbagfxPaletteValidate (p : List Color) : Except GfxErr Unit :=
  if 16 < p.length then Except.error GfxErr.tooManyColors else Except.ok ()

/-- `GBAImage::validate` from `lib/src/gbagfx.rs` delegates to the palette
check. -/
def gbagfxImageValidate (img : GBAImage) : Except GfxErr Unit :=
  gbagfxPaletteValidate img.palette

/-- A decoded raster image as delivered by the external image library: its
dimensions and the row-major list of pixel colors (`GenericImageView::pixels`
iterates rows top to bottom, left to right). -/
structure RawImage where
  width : Nat
  height : Nat
  pix : List Color
deriving DecidableEq

/-- `HashMap::get`: the map is represented by its insertion sequence, where
a later insertion of the same key overwrites an earlier one, so lookup scans
from the end. -/
def mapLookup (m : List (Color × Nat)) (c : Color) : Option Nat :=
  (m.reverse.find? (fun p => p.1 == c)).map Prod.snd

/-- `HashMap::len`: the number of distinct keys. -/
def mapLen (m : List (Color × Nat)) : Nat := (m.map Prod.fst).dedup.length

/-- The final `(key, value)` entries of the map: one entry per distinct key,
carrying the last value inserted for it. -/
def mapEntries (m : List (Color × Nat)) : List (Color × Nat) :=
  (m.map Prod.fst).dedup.map (fun c => (c, (mapLookup m c).getD 0))

/-- Insertion into a list sorted by palette index. -/
def insertByIdx (p : Color × Nat) : List (Color × Nat) → List (Color × Nat)
  | [] => [p]
  | q :: t => if p.2 ≤ q.2 then p :: q :: t else q :: insertByIdx p t

/-- `Itertools::sorted_by` on the index component. -/
def sortByIdx : List (Color × Nat) → List (Color × Nat)
  | [] => []
  | p :: t => insertByIdx p (sortByIdx t)

/-- The shared pixel-conversion loop of `from_generic_image` (tilemage) and
`from_image_view` (gbagfx): map each pixel color through the palette map;
on a missing color either fail with the crate's `UnknownColor` or assign the
next free index `count` and insert it. -/
def convertGo {ε : Type} (unknown : ε) (fixedPalette : Bool) :
    List Color → List (Color × Nat) → Nat → Except ε (List Nat × List (Color × Nat))
  | [], m, _ => Except.ok ([], m)
  | c :: rest, m, count =>
    match mapLookup m c with
    | some idx =>
      match convertGo unknown fixedPalette rest m count with
      | Except.error e => Except.error e
      | Except.ok (ds, m2) => Except.ok (idx :: ds, m2)
    | none =>
      if fixedPalette then Except.error unknown
      else
        match convertGo unknown fixedPalette rest (m ++ [(c, count)]) (count + 1) with
        | Except.error e => Except.error e
        | Except.ok (ds, m2) => Except.ok (count :: ds, m2)

/-- `GBAImage::from_generic_image` from `tilemage/src/lib.rs`: a supplied
palette is truncated to 16 entries and fixes the map (`fixed_palette = true`);
with no palette the map starts empty and is extended (`fixed_palette =
false`).  The output palette is the map's entries sorted by index. -/
def fromGenericImage (img : RawImage) (pal : Option (List Color)) : Except TileErr GBAImage :=
  let fixedPalette := pal.isSome
  let m0 := match pal with
    | none => []
    | some cs => (cs.take 16).enum.map (fun p => (p.2, p.1))
  match convertGo TileErr.unknownColor fixedPalette img.pix m0 (mapLen m0) with
  | Except.error e => Except.error e
  | Except.ok (ds, m) =>
    Except.ok ⟨(sortByIdx (mapEntries m)).map Prod.fst, img.width, img.height, ds⟩

/-- `GBAImage::from_image_view` from `lib/src/gbagfx.rs`.  Note the swapped
tuple: the source sets `fixed_palette = true` when *no* palette is supplied
and `false` when one is, and does not truncate the supplied palette. -/
def gbagfxFromImageView (img : RawImage) (pal : Option (List Color)) : Except GfxErr GBAImage :=
  let fixedPalette := pal.isNone
  let m0 := match pal with
    | none => []
    | some cs => cs.enum.map (fun p => (p.2, p.1))
  match convertGo GfxErr.unknownColor fixedPalette img.pix m0 (mapLen m0) with
  | Except.error e => Except.error e
  | Except.ok (ds, m) =>
    Except.ok ⟨(sortByIdx (mapEntries m)).map Prod.fst, img.width, img.height, ds⟩

/-- Direct pixel access into the raw image (`unsafe_get_pixel`). -/
def colorAt (img : RawImage) (x y : Nat) : Color :=
  img.pix.getD (y * img.width + x) ⟨0, 0, 0⟩

/-- The first 16 pixels of the image in iteration (row-major) order. -/
def first16 (img : RawImage) : List Color := img.pix.take 16

/-- The claim-side enumeration of the top-left 8×2 block in the order the
source's `(0..8).cartesian_product(0..2)` produces: `x`-major. -/
def blockColors (img : RawImage) : List Color :=
  (List.range 8).flatMap (fun x => (List.range 2).map (fun y => colorAt img x y))

/-- The `topleft8x2` computation of `guess_fixed_palette`: each in-bounds
pixel as `some`, collected by `Option`. -/
def topLeft8x2 (img : RawImage) : Option (List Color) :=
  allSome ((List.range 8).flatMap (fun x => (List.range 2).map (fun y =>
    if x < img.width ∧ y < img.height then some (colorAt img x y) else none)))

/-- `guess_fixed_palette` (identical in both crates): first-16 pixels if
pairwise distinct, else the top-left 8×2 block if it has 16 distinct colors
(`HashSet::len` is modelled by `dedup.length`). -/
def guessFixedPalette (img : RawImage) : Option (List Color) :=
  if (first16 img).dedup.length = 16 then some (first16 img)
  else
    match topLeft8x2 img with
    | none => none
    | some colors => if colors.dedup.length = 16 then some colors else none

/-- Collecting a list of `some`s succeeds with the underlying list. -/
theorem allSome_map_some {α : Type} (l : List α) : allSome (l.map some) = some l := by
  induction l with
  | nil => rfl
  | cons a t ih => simp [allSome, ih]

/-- Round-trip of `Color::from_16bit` and `Color::to_16bit` on 15-bit words. -/
theorem colorTo16_from16 (v : Nat) (hv : v < 32768) :
    colorTo16bit (colorFrom16bit v) = v := by
  have h1 : ∀ x : Nat, (x &&& 31) <<< 3 >>> 3 = x % 32 := by
    intro x
    rw [NatBits.and31, Nat.shiftLeft_eq, Nat.shiftRight_eq_div_pow]
    norm_num
  have hor : ∀ a b c : Nat, a < 32 → b < 32 → c < 32 →
      (c * 1024) ||| (b * 32) ||| a = a + 32 * b + 1024 * c := by
    intro a b c ha hb hc
    have e1 : c * 1024 ||| b * 32 = b * 32 + c * 1024 := by
      rw [Nat.lor_comm]
      have h := NatBits.or_add_two_pow 10 (b * 32) c (by omega)
      norm_num at h
      exact h
    rw [e1]
    have e2 : b * 32 + c * 1024 = (b + c * 32) * 32 := by ring
    rw [e2, Nat.lor_comm]
    have h := NatBits.or_add_two_pow 5 a (b + c * 32) (by omega)
    norm_num at h
    rw [h]
    ring
  show ((((v >>> 10) &&& 31) <<< 3) >>> 3) <<< 10 |||
      ((((v >>> 5) &&& 31) <<< 3) >>> 3) <<< 5 ||| (((v &&& 31) <<< 3) >>> 3) = v
  rw [h1 v, h1 (v >>> 5), h1 (v >>> 10)]
  rw [Nat.shiftLeft_eq, Nat.shiftLeft_eq, Nat.shiftRight_eq_div_pow, Nat.shiftRight_eq_div_pow]
  norm_num
  have h2 := hor (v % 32) (v / 32 % 32) (v / 1024 % 32) (by omega) (by omega) (by omega)
  rw [h2]
  omega

/-- Value of an uppercase hex digit character. -/
theorem hexVal_upHexDigit (n : Nat) (h : n < 16) : hexVal (upHexDigit n) = some n := by
  interval_cases n <;> decide

/-- Uppercase hex digit characters are never the sign character. -/
theorem upHexDigit_ne_plus (n : Nat) (h : n < 16) : upHexDigit n ≠ '+' := by
  interval_cases n <;> decide

/-- The 64-character palette strings of the amended claim C7: sixteen 16-bit
words, each rendered as four uppercase hex digits `a,b,c,d` such that the
word value reads `c,d,a,b` (the byte-swap convention of §4.2/§9). -/
def encodeWords (ws : List Nat) : List Char :=
  ws.flatMap (fun v =>
    [upHexDigit (v / 16 % 16), upHexDigit (v % 16),
     upHexDigit (v / 4096 % 16), upHexDigit (v / 256 % 16)])

/-- Each word contributes four characters. -/
theorem encodeWords_length (ws : List Nat) : (encodeWords ws).length = 4 * ws.length := by
  induction ws with
  | nil => rfl
  | cons w t ih =>
    simp only [encodeWords, List.flatMap_cons, List.length_append, List.length_cons] at ih ⊢
    simp only [List.length_nil]
    omega

/-- Parsing one encoded group recovers the word. -/
theorem parseGroup_encode (v : Nat) (hv : v < 65536) :
    parseGroup (upHexDigit (v / 16 % 16), upHexDigit (v % 16),
      upHexDigit (v / 4096 % 16), upHexDigit (v / 256 % 16)) = some (colorFrom16bit v) := by
  have e1 := hexVal_upHexDigit (v / 4096 % 16) (by omega)
  have e2 := hexVal_upHexDigit (v / 256 % 16) (by omega)
  have e3 := hexVal_upHexDigit (v / 16 % 16) (by omega)
  have e4 := hexVal_upHexDigit (v % 16) (by omega)
  have hne : upHexDigit (v / 4096 % 16) ≠ '+' := upHexDigit_ne_plus _ (by omega)
  simp only [parseGroup, fromStrRadix16, List.head?_cons, Option.some.injEq,
    if_neg hne, List.isEmpty_cons, List.foldl_cons, List.foldl_nil, e1, e2, e3, e4]
  norm_num
  have hV : ((v / 4096 % 16 * 16 + v / 256 % 16) * 16 + v / 16 % 16) * 16 + v % 16 = v := by
    omega
  rw [hV]

/-- Displaying the color of a 15-bit word reproduces its encoded group. -/
theorem displayColor_from16 (v : Nat) (hv : v < 32768) :
    displayColor (colorFrom16bit v) =
      [upHexDigit (v / 16 % 16), upHexDigit (v % 16),
       upHexDigit (v / 4096 % 16), upHexDigit (v / 256 % 16)] := by
  unfold displayColor colorToLeBytes hexByte
  rw [colorTo16_from16 v hv]
  rw [NatBits.and255, NatBits.and255, Nat.shiftRight_eq_div_pow]
  norm_num
  have a1 : v % 256 / 16 = v / 16 % 16 := by omega
  have a3 : v / 256 % 256 / 16 = v / 4096 % 16 := by omega
  rw [a1, a3]
  exact ⟨rfl, rfl⟩

/-- Unfolding `displayPalette` one color at a time. -/
theorem displayPalette_cons (c : Color) (l : List Color) :
    displayPalette (c :: l) = displayColor c ++ displayPalette l := by
  simp [displayPalette]

/-- Both directions of the palette-string round-trip, groupwise. -/
theorem parse_display_words (ws : List Nat) (hws : ∀ w ∈ ws, w < 32768) :
    allSome ((tuples4 (encodeWords ws)).map parseGroup) = some (ws.map colorFrom16bit) ∧
    displayPalette (ws.map colorFrom16bit) = encodeWords ws := by
  induction ws with
  | nil => exact ⟨rfl, rfl⟩
  | cons w t ih =>
    have hw : w < 32768 := hws w (List.mem_cons_self w t)
    have ht : ∀ x ∈ t, x < 32768 := fun x hx => hws x (List.mem_cons_of_mem w hx)
    obtain ⟨ih1, ih2⟩ := ih ht
    have hE : encodeWords (w :: t) = upHexDigit (w / 16 % 16) :: upHexDigit (w % 16) ::
        upHexDigit (w / 4096 % 16) :: upHexDigit (w / 256 % 16) :: encodeWords t := by
      simp [encodeWords]
    constructor
    · rw [hE]
      simp only [tuples4, List.map_cons]
      rw [parseGroup_encode w (by omega)]
      simp only [allSome, ih1, Option.map_some]
      rfl
    · simp only [List.map_cons]
      rw [displayPalette_cons, displayColor_from16 w hw, ih2, hE]
      rfl

/-- Claim C7, amended: the round-trip holds exactly on the strings
`encodeWords ws` — 64 uppercase hex digits whose groups decode (in the
`c,d,a,b` order) to words below `0x8000`: such a string is accepted and
re-encoding the parsed palette through `Display` reproduces it verbatim.
(Lowercase digits, a `+` accepted by `from_str_radix`, or a set bit 15 all
break the literal round-trip, as the counterexample shows.) -/
theorem parsePaletteString_roundtrip (ws : List Nat) (h16 : ws.length = 16)
    (hws : ∀ w ∈ ws, w < 32768) :
    parsePaletteString (encodeWords ws) = some (ws.map colorFrom16bit) ∧
    displayPalette (ws.map colorFrom16bit) = encodeWords ws := by
  obtain ⟨h1, h2⟩ := parse_display_words ws hws
  refine ⟨?_, h2⟩
  have hlen : ¬ ((encodeWords ws).length ≠ 64) := by
    rw [encodeWords_length, h16]
    decide
  have hany : (encodeWords ws).any (fun c => (hexVal c).isSome) = true := by
    cases ws with
    | nil => simp at h16
    | cons w t =>
      have hw : w < 32768 := hws w (List.mem_cons_self w t)
      simp [encodeWords, List.any_cons, hexVal_upHexDigit (w / 16 % 16) (by omega)]
  simp only [parsePaletteString]
  rw [if_neg hlen, if_neg (not_not_intro hany)]
  exact h1

/-- A 64-character string accepted by `parse_palette_string` that does not
re-encode to itself: lowercase digits and a set bit 15. -/
def badPalStr : List Char := 'f' :: 'f' :: 'f' :: 'f' :: List.replicate 60 '0'

/-- Claim C7, counterexample: the lowercase string `"ffff" ++ "0" * 60` is
accepted by `parse_palette_string`, but its palette re-encodes through
`Display` to `"FF7F" ++ "0" * 60` (uppercase, and bit 15 of the first word is
lost by the 15-bit unpack/pack), not to the original string. -/
theorem parsePaletteString_roundtrip_cex :
    (parsePaletteString badPalStr).isSome = true ∧
    (parsePaletteString badPalStr).map displayPalette ≠ some badPalStr := by decide

/-- Witness for `parsePaletteString_roundtrip` on the constant palette of
words `0x7C1F` (the §8 scenario S5 color). -/
theorem parsePaletteString_roundtrip_witness :
    (List.replicate 16 31775).length = 16 ∧ (∀ w ∈ List.replicate 16 31775, w < 32768) ∧
    (parsePaletteString (encodeWords (List.replicate 16 31775)) =
      some ((List.replicate 16 31775).map colorFrom16bit) ∧
     displayPalette ((List.replicate 16 31775).map colorFrom16bit) =
      encodeWords (List.replicate 16 31775)) :=
  ⟨by decide, by decide, parsePaletteString_roundtrip _ (by decide) (by decide)⟩

/-- Claim C6, amended: the two `validate` functions split the four claimed
checks between them.  Tilemage's `GBAImage::validate` enforces exactly the
buffer-size, dimension and color-index checks, each with its own diagnostic
and in that priority order, but has no palette-length check; the palette
length ≤ 16 is enforced only by gbagfx's `Palette::validate`, with
`TooManyColors`. -/
theorem validate_spec :
    (∀ img : GBAImage,
      (img.data.length ≠ img.width * img.height →
        validateImage img = Except.error TileErr.dimensionMismatch) ∧
      (img.data.length = img.width * img.height → img.width % 8 ≠ 0 → img.height % 8 ≠ 0 →
        validateImage img = Except.error TileErr.badDimensions) ∧
      (img.data.length = img.width * img.height → (img.width % 8 = 0 ∨ img.height % 8 = 0) →
        (∃ i ∈ img.data, 15 < i) → validateImage img = Except.error TileErr.badColorIndex) ∧
      (img.data.length = img.width * img.height → (img.width % 8 = 0 ∨ img.height % 8 = 0) →
        (∀ i ∈ img.data, i ≤ 15) → validateImage img = Except.ok ())) ∧
    (∀ p : List Color,
      (16 < p.length → gbagfxPaletteValidate p = Except.error GfxErr.tooManyColors) ∧
      (p.length ≤ 16 → gbagfxPaletteValidate p = Except.ok ())) := by
  constructor
  · intro img
    have hdim : ∀ h2 : img.width % 8 = 0 ∨ img.height % 8 = 0,
        ¬ (img.width % 8 ≠ 0 ∧ img.height % 8 ≠ 0) := by
      intro h2
      rcases h2 with h | h
      · exact fun hc => hc.1 h
      · exact fun hc => hc.2 h
    refine ⟨?_, ?_, ?_, ?_⟩
    · intro h1
      unfold validateImage
      rw [if_pos h1]
    · intro h1 h2 h3
      unfold validateImage
      rw [if_neg (fun hc => hc h1), if_pos ⟨h2, h3⟩]
    · intro h1 h2 h3
      have hfind : ((img.data.find? (fun idx => 15 < idx)).isSome) = true := by
        rw [List.find?_isSome]
        obtain ⟨i, hi, hlt⟩ := h3
        exact ⟨i, hi, by simpa using hlt⟩
      unfold validateImage
      rw [if_neg (fun hc => hc h1), if_neg (hdim h2), if_pos hfind]
    · intro h1 h2 h3
      have hfind : ¬ (((img.data.find? (fun idx => 15 < idx)).isSome) = true) := by
        rw [List.find?_isSome]
        rintro ⟨i, hi, hlt⟩
        have := h3 i hi
        simp at hlt
        omega
      unfold validateImage
      rw [if_neg (fun hc => hc h1), if_neg (hdim h2), if_neg hfind]
  · intro p
    constructor
    · intro h
      unfold gbagfxPaletteValidate
      rw [if_pos h]
    · intro h
      unfold gbagfxPaletteValidate
      rw [if_neg (by omega)]

/-- An 8×8 all-zero image with a 17-entry palette. -/
def img17 : GBAImage := ⟨List.replicate 17 ⟨0, 0, 0⟩, 8, 8, List.replicate 64 0⟩

/-- Claim C6, counterexample: tilemage's `GBAImage::validate` accepts an
image whose palette has 17 entries — there is no `TooManyColors` check in
it, contrary to the claim that `validate` enforces all four checks. -/
theorem validateImage_palette_cex :
    16 < img17.palette.length ∧ validateImage img17 = Except.ok () := by decide

/-- An image whose buffer length does not match its dimensions. -/
def imgBadLen : GBAImage := ⟨[], 1, 1, []⟩

/-- A 17-entry palette. -/
def pal17 : List Color := List.replicate 17 ⟨0, 0, 0⟩

/-- Witness for `validate_spec`: the buffer-size violation and the gbagfx
palette-length violation at concrete inputs. -/
theorem validate_spec_witness :
    (imgBadLen.data.length ≠ imgBadLen.width * imgBadLen.height ∧
      validateImage imgBadLen = Except.error TileErr.dimensionMismatch) ∧
    (16 < pal17.length ∧ gbagfxPaletteValidate pal17 = Except.error GfxErr.tooManyColors) :=
  ⟨⟨by decide, (validate_spec.1 imgBadLen).1 (by decide)⟩,
   ⟨by decide, (validate_spec.2 pal17).1 (by decide)⟩⟩

/-- A pure red color. -/
def red : Color := ⟨255, 0, 0⟩

/-- A pure blue color. -/
def blue : Color := ⟨0, 0, 255⟩

/-- A 1×1 image with a single red pixel. -/
def oneRed : RawImage := ⟨1, 1, [red]⟩

/-- Claim C3: `from_image_view` in `lib/src/gbagfx.rs` swaps the
`fixed_palette` flag relative to the claim (and to tilemage's
`from_generic_image`), and omits the 16-entry truncation.  With *no* palette
supplied it fails with `UnknownColor` on the first pixel instead of
inferring; with a supplied palette it silently extends the palette with
unseen colors instead of failing.  The tilemage crate implements the claimed
behavior on the same inputs (third conjunct). -/
theorem gbagfx_swapped_palette_flag :
    (gbagfxFromImageView oneRed none = Except.error GfxErr.unknownColor) ∧
    ((gbagfxFromImageView oneRed (some [blue])).map (fun i => (i.data, i.palette)) =
      Except.ok ([1], [blue, red])) ∧
    ((fromGenericImage oneRed none).map (fun i => (i.data, i.palette)) =
      Except.ok ([0], [red])) := by decide

/-- A family of pairwise distinct colors indexed by the red channel. -/
def cse (n : Nat) : Color := ⟨n, 0, 0⟩

/-- A region-wise colored 16×2 image: the top-left 8×2 block holds the 16
distinct colors `cse (2x + y)` at `(x, y)`, and the right half of each row
repeats an earlier color so that the first 16 row-major pixels are not
pairwise distinct. -/
def imgC8 : RawImage := ⟨16, 2,
  [cse 0, cse 2, cse 4, cse 6, cse 8, cse 10, cse 12, cse 14] ++ List.replicate 8 (cse 0)
  ++ [cse 1, cse 3, cse 5, cse 7, cse 9, cse 11, cse 13, cse 15] ++ List.replicate 8 (cse 1)⟩

/-- Claim C8, counterexample: when the 8×2 block is adopted, palette index 1
holds the color of pixel `(0, 1)` — not the color of pixel `(1, 0)`, which
differs — because `(0..8).cartesian_product(0..2)` enumerates the block
column-major (`x`-major), not row-major. -/
theorem guessFixedPalette_row_major_cex :
    (guessFixedPalette imgC8).map (fun p => p[1]?) = some (some (cse 1)) ∧
    colorAt imgC8 1 0 = cse 2 ∧ cse 2 ≠ cse 1 := by decide

/-- The in-bounds 8×2 block collection succeeds and returns the block in the
source's `x`-major order. -/
theorem topLeft8x2_eq (img : RawImage) (hw : 8 ≤ img.width) (hh : 2 ≤ img.height) :
    topLeft8x2 img = some (blockColors img) := by
  unfold topLeft8x2
  have he : ((List.range 8).flatMap (fun x => (List.range 2).map (fun y =>
      if x < img.width ∧ y < img.height then some (colorAt img x y) else none))) =
      (List.range 8).flatMap (fun x => (List.range 2).map (fun y => some (colorAt img x y))) := by
    apply List.flatMap_congr
    intro x hx
    apply List.map_congr_left
    intro y hy
    rw [if_pos]
    have hx8 : x < 8 := List.mem_range.mp hx
    have hy2 : y < 2 := List.mem_range.mp hy
    exact ⟨by omega, by omega⟩
  rw [he]
  have hm : (List.range 8).flatMap (fun x => (List.range 2).map (fun y => some (colorAt img x y))) =
      (blockColors img).map some := by
    unfold blockColors
    rw [List.map_flatMap]
    apply List.flatMap_congr
    intro x _
    rw [List.map_map]
    rfl
  rw [hm]
  exact allSome_map_some _

/-- Claim C8, amended: when the first 16 row-major pixels are not pairwise
distinct, the image contains the top-left 8×2 block, and that block holds 16
distinct colors, `guess_fixed_palette` adopts the block in *column-major*
(`x`-major) order: the pixel at `(x, y)` receives palette index `2x + y`, so
pixel `(1, 0)` receives index 2, not 1. -/
theorem guessFixedPalette_col_major (img : RawImage)
    (h16 : (first16 img).dedup.length ≠ 16) (hw : 8 ≤ img.width) (hh : 2 ≤ img.height)
    (hd : (blockColors img).dedup.length = 16) :
    guessFixedPalette img = some (blockColors img) ∧
    ∀ x y : Nat, x < 8 → y < 2 → (blockColors img)[2 * x + y]? = some (colorAt img x y) := by
  constructor
  · unfold guessFixedPalette
    rw [if_neg h16, topLeft8x2_eq img hw hh]
    simp [hd]
  · intro x y hx hy
    have h := ListHelpers.flatMap_range_map_getElem? 2 (fun a b => colorAt img a b) 8 x y hx hy
    rw [show 2 * x + y = x * 2 + y by ring]
    exact h

/-- Witness for `guessFixedPalette_col_major` at the concrete image
`imgC8`. -/
theorem guessFixedPalette_col_major_witness :
    ((first16 imgC8).dedup.length ≠ 16 ∧ 8 ≤ imgC8.width ∧ 2 ≤ imgC8.height ∧
      (blockColors imgC8).dedup.length = 16) ∧
    (guessFixedPalette imgC8 = some (blockColors imgC8) ∧
     ∀ x y : Nat, x < 8 → y < 2 → (blockColors imgC8)[2 * x + y]? = some (colorAt imgC8 x y)) :=
  ⟨⟨by decide, by decide, by decide, by decide⟩,
   guessFixedPalette_col_major imgC8 (by decide) (by decide) (by decide) (by decide)⟩

/-- `GBAImage::pixel_at`: `None` outside the image, else `data.get(y*w + x)`. -/
def pixelAt (img : GBAImage) (x y : Nat) : Option Nat :=
  if img.width ≤ x ∨ img.height ≤ y then none else img.data[y * img.width + x]?

/-- `GBAImageView`: a rectangular window borrowing an owner image. -/
structure ImgView where
  img : GBAImage
  x : Nat
  y : Nat
  width : Nat
  height : Nat
deriving DecidableEq

/-- `GBAImageView::pixel_at`: view-bounds check, then the owner's pixel. -/
def viewPixelAt (v : ImgView) (x y : Nat) : Option Nat :=
  if v.width ≤ x ∨ v.height ≤ y then none else pixelAt v.img (v.x + x) (v.y + y)

/-- The state of `PixelIterator`. -/
structure PixState where
  xOffs : Nat
  yOffs : Nat
  x : Nat
  y : Nat
  width : Nat
  height : Nat
deriving DecidableEq

/-- `PixelIterator::next`, unrolled into the list of yielded values as a
fuel-indexed recursion: compute the true coordinates from the current state,
stop when `y` reaches the view height, advance the state, and yield
`owner.pixel_at(..)` — the iterator ends as soon as that lookup is `None`. -/
def pixIterF (img : GBAImage) : Nat → PixState → List Nat
  | 0, _ => []
  | fuel+1, st =>
    if st.height ≤ st.y then []
    else
      match pixelAt img (st.x + st.xOffs) (st.y + st.yOffs) with
      | none => []
      | some v =>
        if st.width ≤ st.x + 1 then
          v :: pixIterF img fuel ⟨st.xOffs, st.yOffs, 0, st.y + 1, st.width, st.height⟩
        else
          v :: pixIterF img fuel ⟨st.xOffs, st.yOffs, st.x + 1, st.y, st.width, st.height⟩

/-- `GBAImageView::pixels`: iterate from `(0, 0)` with the view's offsets.
The fuel exceeds the iterator's maximal number of steps (see
`pixIterF_master`). -/
def viewPixels (v : ImgView) : List Nat :=
  pixIterF v.img ((v.height + 1) * (v.width + 1) + 1) ⟨v.x, v.y, 0, 0, v.width, v.height⟩

/-- Values of the longest all-`some` prefix — how a Rust iterator consumer
sees a stream that returns `None` to end. -/
def takeSomes {α : Type} : List (Option α) → List α
  | some a :: t => a :: takeSomes t
  | _ => []

/-- The row-major coordinates a `w × h` traversal has still to visit when
standing at `(x, y)`. -/
def remCoords (w h x y : Nat) : List (Nat × Nat) :=
  if h ≤ y then []
  else (List.range' x (w - x)).map (fun c => (c, y)) ++
       (List.range' (y + 1) (h - y - 1)).flatMap
         (fun r => (List.range w).map (fun c => (c, r)))

/-- All coordinates of a `w × h` rectangle in row-major order. -/
def coords (w h : Nat) : List (Nat × Nat) :=
  (List.range h).flatMap (fun r => (List.range w).map (fun c => (c, r)))

/-- The iterator yields nothing once `y` has reached the height. -/
theorem pixIterF_done (img : GBAImage) (fuel : Nat) (st : PixState) (h : st.height ≤ st.y) :
    pixIterF img fuel st = [] := by
  cases fuel with
  | zero => rfl
  | succ n => simp [pixIterF, h]

/-- At the start of a row the remaining coordinates are whole rows. -/
theorem remCoords_row_start (w h y : Nat) (hy : y < h) :
    remCoords w h 0 y =
      (List.range' y (h - y)).flatMap (fun r => (List.range w).map (fun c => (c, r))) := by
  rw [remCoords, if_neg (by omega)]
  have h3 : h - y = (h - y - 1) + 1 := by omega
  rw [h3, List.range'_succ, List.flatMap_cons]
  simp only [Nat.sub_zero, ← List.range_eq_range']
  have h5 : h - y - 1 + 1 - 1 = h - y - 1 := by omega
  rw [h5]

/-- Characterization of `PixelIterator`: with sufficient fuel and a positive
width it yields the values of the remaining row-major coordinate stream up to
the first `None` lookup. -/
theorem pixIterF_master (img : GBAImage) (xo yo w h : Nat) :
    ∀ fuel x y, x < w → (h - y - 1) * w + (w - x) + 1 ≤ fuel →
    pixIterF img fuel ⟨xo, yo, x, y, w, h⟩ =
      takeSomes ((remCoords w h x y).map (fun p => pixelAt img (p.1 + xo) (p.2 + yo))) := by
  intro fuel
  induction fuel with
  | zero => intro x y hx hf; omega
  | succ n ih =>
    intro x y hx hf
    by_cases hy : h ≤ y
    · rw [pixIterF_done img _ _ hy]
      simp [remCoords, hy, takeSomes]
    · have hrow : w - x = (w - x - 1) + 1 := by omega
      have hcons : remCoords w h x y =
          (x, y) :: ((List.range' (x + 1) (w - x - 1)).map (fun c => (c, y)) ++
            (List.range' (y + 1) (h - y - 1)).flatMap
              (fun r => (List.range w).map (fun c => (c, r)))) := by
        rw [remCoords, if_neg hy, hrow, List.range'_succ]
        simp
      rw [hcons]
      simp only [List.map_cons]
      rw [pixIterF]
      simp only [if_neg hy]
      cases hpix : pixelAt img (x + xo) (y + yo) with
      | none => simp [takeSomes]
      | some v =>
        simp only [takeSomes]
        by_cases hx1 : w ≤ x + 1
        · rw [if_pos hx1]
          have htail : List.range' (x + 1) (w - x - 1) = [] := by
            have h0 : w - x - 1 = 0 := by omega
            rw [h0, List.range'_zero]
          rw [htail]
          simp only [List.map_nil, List.nil_append]
          by_cases hyh : y + 1 < h
          · have hb : (h - (y + 1) - 1) * w + (w - 0) + 1 ≤ n := by
              have he : (h - y - 1) * w = (h - (y + 1) - 1) * w + w := by
                have h2 : h - y - 1 = (h - (y + 1) - 1) + 1 := by omega
                rw [h2, Nat.succ_mul]
              omega
            rw [ih 0 (y + 1) (by omega) hb]
            rw [remCoords_row_start w h (y + 1) hyh]
            have h4 : h - (y + 1) = h - y - 1 := by omega
            rw [h4]
          · have hde : h - y - 1 = 0 := by omega
            rw [pixIterF_done img n _ (by simp; omega)]
            rw [hde, List.range'_zero]
            simp [takeSomes]
        · rw [if_neg hx1]
          have hb : (h - y - 1) * w + (w - (x + 1)) + 1 ≤ n := by omega
          rw [ih (x + 1) y (by omega) hb]
          rw [remCoords, if_neg hy]
          have h6 : w - (x + 1) = w - x - 1 := by omega
          rw [h6]



/-- `takeSomes` of an all-`some` list. -/
theorem takeSomes_map_some {α : Type} (l : List α) : takeSomes (l.map some) = l := by
  induction l with
  | nil => rfl
  | cons a t ih => simp [takeSomes, ih]

/-- From the origin, the remaining coordinates are the whole rectangle. -/
theorem remCoords_zero_zero (w h : Nat) : remCoords w h 0 0 = coords w h := by
  cases h with
  | zero => rfl
  | succ m =>
    rw [remCoords_row_start w (m + 1) 0 (by omega), coords]
    simp [List.range_eq_range']

/-- Members of the rectangle enumeration are in bounds. -/
theorem mem_coords {w h : Nat} {p : Nat × Nat} (hp : p ∈ coords w h) : p.1 < w ∧ p.2 < h := by
  rw [coords] at hp
  rw [List.mem_flatMap] at hp
  obtain ⟨r, hr, hp2⟩ := hp
  rw [List.mem_map] at hp2
  obtain ⟨c, hc, he⟩ := hp2
  rw [List.mem_range] at hr hc
  rw [← he]
  exact ⟨hc, hr⟩

/-- In bounds and with a consistent buffer, `pixel_at` returns the row-major
entry. -/
theorem pixelAt_in_bounds (img : GBAImage) (x y : Nat) (hx : x < img.width)
    (hy : y < img.height) (hlen : img.data.length = img.width * img.height) :
    pixelAt img x y = some (img.data.getD (y * img.width + x) 0) := by
  have hidx : y * img.width + x < img.data.length := by
    rw [hlen]
    have h1 : (y + 1) * img.width ≤ img.height * img.width := Nat.mul_le_mul_right _ (by omega)
    rw [Nat.succ_mul] at h1
    rw [Nat.mul_comm img.width img.height]
    omega
  rw [pixelAt, if_neg (by omega)]
  rw [List.getElem?_eq_getElem hidx]
  rw [List.getD_eq_getElem?_getD, List.getElem?_eq_getElem hidx]
  rfl

/-- `pixels()` on a positive-width view yields the row-major stream truncated
at the first out-of-bounds lookup. -/
theorem viewPixels_master (v : ImgView) (hw : 1 ≤ v.width) :
    viewPixels v = takeSomes ((coords v.width v.height).map
      (fun p => pixelAt v.img (p.1 + v.x) (p.2 + v.y))) := by
  rw [viewPixels]
  have hb : (v.height - 0 - 1) * v.width + (v.width - 0) + 1 ≤
      (v.height + 1) * (v.width + 1) + 1 := by
    have hA : (v.height - 0 - 1) * v.width ≤ v.height * v.width :=
      Nat.mul_le_mul_right _ (by omega)
    have hB : (v.height + 1) * (v.width + 1) = v.height * v.width + v.height + v.width + 1 := by
      ring
    omega
  rw [pixIterF_master v.img v.x v.y v.width v.height _ 0 0 (by omega) hb]
  rw [remCoords_zero_zero]

/-- A fully in-bounds view yields exactly its rectangle of data entries. -/
theorem viewPixels_in_bounds (v : ImgView) (hw : 1 ≤ v.width)
    (hbx : v.x + v.width ≤ v.img.width) (hby : v.y + v.height ≤ v.img.height)
    (hlen : v.img.data.length = v.img.width * v.img.height) :
    viewPixels v = (coords v.width v.height).map
      (fun p => v.img.data.getD ((p.2 + v.y) * v.img.width + (p.1 + v.x)) 0) := by
  rw [viewPixels_master v hw]
  have he : (coords v.width v.height).map (fun p => pixelAt v.img (p.1 + v.x) (p.2 + v.y)) =
      ((coords v.width v.height).map
        (fun p => v.img.data.getD ((p.2 + v.y) * v.img.width + (p.1 + v.x)) 0)).map some := by
    rw [List.map_map]
    apply List.map_congr_left
    intro p hp
    obtain ⟨h1, h2⟩ := mem_coords hp
    exact pixelAt_in_bounds v.img (p.1 + v.x) (p.2 + v.y) (by omega) (by omega) hlen
  rw [he, takeSomes_map_some]

/-- Size of the rectangle enumeration. -/
theorem coords_length (w h : Nat) : (coords w h).length = h * w := by
  rw [coords]
  rw [ListHelpers.length_flatMap_const (List.range h)
    (fun r => (List.range w).map (fun c => (c, r))) w (by intro a _; simp)]
  rw [List.length_range]

/-- Claim C10, amended: for a view of *positive* width, `pixels()` yields the
row-major value stream truncated at the first out-of-bounds coordinate; in
particular a view lying entirely inside an image with a consistent buffer
yields exactly `width × height` values in row-major order, each equal to
`pixel_at` of the corresponding view coordinate.  (A zero-width view instead
yields one pixel per row, see the counterexample.) -/
theorem viewPixels_spec (v : ImgView) (hw : 1 ≤ v.width) :
    viewPixels v = takeSomes ((coords v.width v.height).map
        (fun p => pixelAt v.img (p.1 + v.x) (p.2 + v.y))) ∧
    (v.x + v.width ≤ v.img.width → v.y + v.height ≤ v.img.height →
      v.img.data.length = v.img.width * v.img.height →
      (viewPixels v).length = v.width * v.height ∧
      ∀ c r : Nat, c < v.width → r < v.height →
        (viewPixels v)[r * v.width + c]? = viewPixelAt v c r) := by
  refine ⟨viewPixels_master v hw, ?_⟩
  intro hbx hby hlen
  rw [viewPixels_in_bounds v hw hbx hby hlen]
  constructor
  · rw [List.length_map, coords_length]
    ring
  · intro c r hc hr
    have hflat : (coords v.width v.height).map
        (fun p => v.img.data.getD ((p.2 + v.y) * v.img.width + (p.1 + v.x)) 0) =
        (List.range v.height).flatMap (fun r2 => (List.range v.width).map
          (fun c2 => v.img.data.getD ((r2 + v.y) * v.img.width + (c2 + v.x)) 0)) := by
      rw [coords, List.map_flatMap]
      apply List.flatMap_congr
      intro r2 _
      rw [List.map_map]
      rfl
    rw [hflat]
    rw [ListHelpers.flatMap_range_map_getElem? v.width
      (fun r2 c2 => v.img.data.getD ((r2 + v.y) * v.img.width + (c2 + v.x)) 0)
      v.height r c hr hc]
    rw [viewPixelAt, if_neg (by omega)]
    rw [pixelAt_in_bounds v.img (v.x + c) (v.y + r) (by omega) (by omega) hlen]
    have harith : (r + v.y) * v.img.width + (c + v.x) = (v.y + r) * v.img.width + (v.x + c) := by
      ring
    rw [harith]

/-- A 1×1 image holding the single pixel value 7. -/
def oneImg : GBAImage := ⟨[⟨0, 0, 0⟩], 1, 1, [7]⟩

/-- A width-0, height-1 view of `oneImg`, entirely within bounds. -/
def zeroWideView : ImgView := ⟨oneImg, 0, 0, 0, 1⟩

/-- Claim C10, counterexample: a zero-width in-bounds view should yield
`0 × 1 = 0` values by the claim, but the iterator advances to the next row
before checking the (empty) row, so it yields one pixel. -/
theorem viewPixels_zero_width_cex :
    zeroWideView.width * zeroWideView.height = 0 ∧ viewPixels zeroWideView = [7] := by decide

/-- A 2×2 image with distinct pixel values. -/
def img22 : GBAImage := ⟨[], 2, 2, [1, 2, 3, 4]⟩

/-- The in-bounds right column of `img22` as a 1×2 view. -/
def view22 : ImgView := ⟨img22, 1, 0, 1, 2⟩

/-- Witness for `viewPixels_spec` on the concrete view `view22`. -/
theorem viewPixels_spec_witness :
    1 ≤ view22.width ∧
    (viewPixels view22 = takeSomes ((coords view22.width view22.height).map
        (fun p => pixelAt view22.img (p.1 + view22.x) (p.2 + view22.y))) ∧
    (view22.x + view22.width ≤ view22.img.width → view22.y + view22.height ≤ view22.img.height →
      view22.img.data.length = view22.img.width * view22.img.height →
      (viewPixels view22).length = view22.width * view22.height ∧
      ∀ c r : Nat, c < view22.width → r < view22.height →
        (viewPixels view22)[r * view22.width + c]? = viewPixelAt view22 c r)) :=
  ⟨by decide, viewPixels_spec view22 (by decide)⟩



/-- `Tiles::next` as a fuel-indexed recursion: stop once `8*y` reaches the
image height, yield the 8×8 view at `(8x, 8y)`, and advance (wrapping when
`8*(x+1)` reaches the width). -/
def tilesIterF (img : GBAImage) : Nat → Nat → Nat → List ImgView
  | 0, _, _ => []
  | fuel+1, x, y =>
    if img.height ≤ 8 * y then []
    else if img.width ≤ 8 * (x + 1) then
      ⟨img, 8 * x, 8 * y, 8, 8⟩ :: tilesIterF img fuel 0 (y + 1)
    else
      ⟨img, 8 * x, 8 * y, 8, 8⟩ :: tilesIterF img fuel (x + 1) y

/-- `GBAImage::tiles`: all 8×8 tile views in raster order. -/
def tilesList (img : GBAImage) : List ImgView :=
  tilesIterF img ((img.height / 8 + 2) * (img.width / 8 + 2)) 0 0

/-- The `tuples::<(_,_)>` pairing and nibble packing of `encode_tiles`:
consecutive pixel pairs `(a, b)` become `((a & 0xF) | ((b & 0xF) << 4)) as
u8`, a trailing odd pixel is dropped. -/
def pack2 : List Nat → List Nat
  | a :: b :: rest => (((a &&& 15) ||| ((b &&& 15) <<< 4)) % 256) :: pack2 rest
  | _ => []

/-- `encode_tiles` applied to `image.tiles()`: flatten each tile's pixels
and pack pairs of nibbles. -/
def encodeTiles (img : GBAImage) : List Nat :=
  pack2 ((tilesList img).flatMap viewPixels)

/-- The claim-side pixel enumeration of C2: tile-major over 8×8 cells in
raster order, row-major within each tile (rows truncated at the image's
bottom edge when the height is not a multiple of 8). -/
def enumTilePix (img : GBAImage) : List Nat :=
  (List.range ((img.height + 7) / 8)).flatMap (fun ty =>
    (List.range (img.width / 8)).flatMap (fun tx =>
      (List.range (min 8 (img.height - 8 * ty))).flatMap (fun r =>
        (List.range 8).map (fun c =>
          img.data.getD ((8 * ty + r) * img.width + (8 * tx + c)) 0))))

/-- Characterization of the tile iterator for widths divisible by 8. -/
theorem tilesIterF_master (img : GBAImage) (hw8 : img.width % 8 = 0) :
    ∀ fuel x y, x < img.width / 8 →
      ((img.height + 7) / 8 - y - 1) * (img.width / 8) + (img.width / 8 - x) + 1 ≤ fuel →
    tilesIterF img fuel x y =
      (remCoords (img.width / 8) ((img.height + 7) / 8) x y).map
        (fun p => ⟨img, 8 * p.1, 8 * p.2, 8, 8⟩) := by
  intro fuel
  induction fuel with
  | zero => intro x y hx hf; omega
  | succ n ih =>
    intro x y hx hf
    set w := img.width / 8 with hwdef
    set h := (img.height + 7) / 8 with hhdef
    by_cases hy : h ≤ y
    · have hstop : img.height ≤ 8 * y := by omega
      rw [tilesIterF]
      rw [if_pos hstop, remCoords, if_pos hy]
      rfl
    · have hgo : ¬ (img.height ≤ 8 * y) := by omega
      have hrow : w - x = (w - x - 1) + 1 := by omega
      have hcons : remCoords w h x y =
          (x, y) :: ((List.range' (x + 1) (w - x - 1)).map (fun c => (c, y)) ++
            (List.range' (y + 1) (h - y - 1)).flatMap
              (fun r => (List.range w).map (fun c => (c, r)))) := by
        rw [remCoords, if_neg hy, hrow, List.range'_succ]
        simp
      rw [hcons, List.map_cons, tilesIterF, if_neg hgo]
      by_cases hx1 : w ≤ x + 1
      · have hwrap : img.width ≤ 8 * (x + 1) := by omega
        rw [if_pos hwrap]
        have htail : List.range' (x + 1) (w - x - 1) = [] := by
          have h0 : w - x - 1 = 0 := by omega
          rw [h0, List.range'_zero]
        rw [htail]
        simp only [List.map_nil, List.nil_append]
        by_cases hyh : y + 1 < h
        · have hb : (h - (y + 1) - 1) * w + (w - 0) + 1 ≤ n := by
            have he : (h - y - 1) * w = (h - (y + 1) - 1) * w + w := by
              have h2 : h - y - 1 = (h - (y + 1) - 1) + 1 := by omega
              rw [h2, Nat.succ_mul]
            omega
          rw [ih 0 (y + 1) (by omega) hb]
          rw [remCoords_row_start w h (y + 1) hyh]
          have h4 : h - (y + 1) = h - y - 1 := by omega
          rw [h4]
        · have hde : h - y - 1 = 0 := by omega
          have hdone : tilesIterF img n 0 (y + 1) = [] := by
            cases n with
            | zero => rfl
            | succ m =>
              rw [tilesIterF, if_pos (by omega)]
          rw [hdone, hde, List.range'_zero]
          simp
      · have hnowrap : ¬ (img.width ≤ 8 * (x + 1)) := by omega
        rw [if_neg hnowrap]
        have hb : (h - y - 1) * w + (w - (x + 1)) + 1 ≤ n := by omega
        rw [ih (x + 1) y (by omega) hb]
        rw [remCoords, if_neg hy]
        have h6 : w - (x + 1) = w - x - 1 := by omega
        rw [h6]

/-- The tile list is the raster enumeration of tile origins. -/
theorem tilesList_eq (img : GBAImage) (hw8 : img.width % 8 = 0) (hw0 : 0 < img.width) :
    tilesList img = (coords (img.width / 8) ((img.height + 7) / 8)).map
      (fun p => ⟨img, 8 * p.1, 8 * p.2, 8, 8⟩) := by
  rw [tilesList]
  set w := img.width / 8
  set h := (img.height + 7) / 8
  have hb : (h - 0 - 1) * w + (w - 0) + 1 ≤ (img.height / 8 + 2) * (w + 2) := by
    have hA : (h - 0 - 1) * w ≤ (img.height / 8) * w := Nat.mul_le_mul_right _ (by omega)
    have hB : (img.height / 8 + 2) * (w + 2) = (img.height / 8) * w + 2 * (img.height / 8)
        + 2 * w + 4 := by ring
    omega
  rw [tilesIterF_master img hw8 _ 0 0 (by omega) hb]
  rw [remCoords_zero_zero]



/-- An all-`some` prefix passes through `takeSomes`. -/
theorem takeSomes_map_some_append {α : Type} (l : List α) (B : List (Option α)) :
    takeSomes (l.map some ++ B) = l ++ takeSomes B := by
  induction l with
  | nil => rfl
  | cons a t ih => simp [takeSomes, ih]

/-- Row-structured `takeSomes`: rows before a cutoff are all-`some`, rows at
or past the cutoff begin with `none`, so the stream ends at the cutoff. -/
theorem takeSomes_cutoff (optrow : Nat → List (Option Nat)) (valrow : Nat → List Nat) (m : Nat) :
    ∀ (cnt s : Nat),
    (∀ r, s ≤ r → r < m → optrow r = (valrow r).map some) →
    (∀ r, m ≤ r → s ≤ r → r < s + cnt → ∃ t, optrow r = none :: t) →
    takeSomes ((List.range' s cnt).flatMap optrow) =
      (List.range' s (min cnt (m - s))).flatMap valrow := by
  intro cnt
  induction cnt with
  | zero =>
    intro s h1 h2
    have h0 : min 0 (m - s) = 0 := by omega
    rw [List.range'_zero, List.flatMap_nil, h0, List.range'_zero, List.flatMap_nil]
    rfl
  | succ n ih =>
    intro s h1 h2
    rw [List.range'_succ, List.flatMap_cons]
    by_cases hs : s < m
    · rw [h1 s (le_refl s) hs, takeSomes_map_some_append]
      rw [ih (s + 1) (fun r hr1 hr2 => h1 r (by omega) hr2)
        (fun r hr1 hr2 hr3 => h2 r hr1 (by omega) (by omega))]
      have hmin : min (n + 1) (m - s) = (min n (m - (s + 1))) + 1 := by omega
      rw [hmin, List.range'_succ, List.flatMap_cons]
    · obtain ⟨t, ht⟩ := h2 s (by omega) (le_refl s) (by omega)
      rw [ht]
      have hmin : min (n + 1) (m - s) = 0 := by omega
      rw [hmin, List.range'_zero, List.flatMap_nil, List.cons_append]
      rfl

/-- The pixel stream of one 8×8 tile whose columns are in bounds: full 8-pixel
rows down to the image's bottom edge, then nothing (the iterator stops at the
first out-of-bounds row). -/
theorem tilePixels_eq (img : GBAImage) (tx ty : Nat)
    (hx : 8 * (tx + 1) ≤ img.width)
    (hlen : img.data.length = img.width * img.height) :
    viewPixels ⟨img, 8 * tx, 8 * ty, 8, 8⟩ =
      (List.range (min 8 (img.height - 8 * ty))).flatMap (fun r =>
        (List.range 8).map (fun c =>
          img.data.getD ((8 * ty + r) * img.width + (8 * tx + c)) 0)) := by
  rw [viewPixels_master _ (by norm_num)]
  show takeSomes ((coords 8 8).map (fun p => pixelAt img (p.1 + 8 * tx) (p.2 + 8 * ty))) = _
  rw [coords, List.map_flatMap]
  have hstep : (List.range 8).flatMap (fun r => ((List.range 8).map (fun c => (c, r))).map
      (fun p => pixelAt img (p.1 + 8 * tx) (p.2 + 8 * ty))) =
      (List.range 8).flatMap (fun r => (List.range 8).map
        (fun c => pixelAt img (c + 8 * tx) (r + 8 * ty))) := by
    apply List.flatMap_congr
    intro r _
    rw [List.map_map]
    rfl
  rw [hstep]
  rw [List.range_eq_range' 8]
  set m := min 8 (img.height - 8 * ty) with hm
  have hcut := takeSomes_cutoff
    (fun r => (List.range' 0 8).map (fun c => pixelAt img (c + 8 * tx) (r + 8 * ty)))
    (fun r => (List.range' 0 8).map
      (fun c => img.data.getD ((8 * ty + r) * img.width + (8 * tx + c)) 0))
    m 8 0 ?h1 ?h2
  case h1 =>
    intro r hr0 hrm
    rw [List.map_map]
    apply List.map_congr_left
    intro c hc
    have hc8 : c < 8 := by
      rw [List.mem_range'_1] at hc
      omega
    have hxx : c + 8 * tx < img.width := by omega
    have hyy : r + 8 * ty < img.height := by omega
    rw [pixelAt_in_bounds img (c + 8 * tx) (r + 8 * ty) hxx hyy hlen]
    have harith : (r + 8 * ty) * img.width + (c + 8 * tx) =
        (8 * ty + r) * img.width + (8 * tx + c) := by ring
    rw [harith]
    rfl
  case h2 =>
    intro r hmr hr0 hr8
    show ∃ t, List.map (fun c => pixelAt img (c + 8 * tx) (r + 8 * ty))
      (List.range' 0 8) = none :: t
    have h08 : List.range' 0 8 = 0 :: [1, 2, 3, 4, 5, 6, 7] := by decide
    rw [h08, List.map_cons]
    have hnone : pixelAt img (0 + 8 * tx) (r + 8 * ty) = none := by
      rw [pixelAt, if_pos (Or.inr (show img.height ≤ r + 8 * ty by omega))]
    rw [hnone]
    exact ⟨_, rfl⟩
  rw [hcut]
  have h0 : min 8 (m - 0) = m := by omega
  rw [h0, ← List.range_eq_range']



/-- Every yielded tile view borrows the iterated image and is 8 pixels
tall. -/
theorem tiles_mem_img (img : GBAImage) :
    ∀ fuel x y v, v ∈ tilesIterF img fuel x y → v.img = img ∧ v.height = 8 := by
  intro fuel
  induction fuel with
  | zero => intro x y v hv; simp [tilesIterF] at hv
  | succ n ih =>
    intro x y v hv
    rw [tilesIterF] at hv
    by_cases h1 : img.height ≤ 8 * y
    · rw [if_pos h1] at hv
      simp at hv
    · rw [if_neg h1] at hv
      by_cases h2 : img.width ≤ 8 * (x + 1)
      · rw [if_pos h2] at hv
        rcases List.mem_cons.mp hv with he | hm
        · rw [he]
          exact ⟨rfl, rfl⟩
        · exact ih 0 (y + 1) v hm
      · rw [if_neg h2] at hv
        rcases List.mem_cons.mp hv with he | hm
        · rw [he]
          exact ⟨rfl, rfl⟩
        · exact ih (x + 1) y v hm

/-- Views of a zero-width image yield no pixels. -/
theorem viewPixels_width_zero (v : ImgView) (h0 : v.img.width = 0) (hh : 0 < v.height) :
    viewPixels v = [] := by
  rw [viewPixels]
  rw [pixIterF]
  rw [if_neg (by simp; omega)]
  have hnone : pixelAt v.img (0 + v.x) (0 + v.y) = none := by
    rw [pixelAt, if_pos (Or.inl (by omega))]
  simp only [hnone]

/-- The flattened tile pixel stream equals the claim-side tile-major
enumeration when the width is a multiple of 8. -/
theorem stream_eq (img : GBAImage) (hw8 : img.width % 8 = 0)
    (hlen : img.data.length = img.width * img.height) :
    (tilesList img).flatMap viewPixels = enumTilePix img := by
  rcases Nat.eq_zero_or_pos img.width with h0 | hpos
  · have hL : (tilesList img).flatMap viewPixels = [] := by
      rw [List.flatMap_eq_nil_iff]
      intro v hv
      obtain ⟨hvi, hvh⟩ := tiles_mem_img img _ 0 0 v hv
      exact viewPixels_width_zero v (by rw [hvi]; exact h0) (by omega)
    have hR : enumTilePix img = [] := by
      rw [enumTilePix, List.flatMap_eq_nil_iff]
      intro ty _
      rw [h0]
      simp
    rw [hL, hR]
  · rw [tilesList_eq img hw8 hpos, coords, List.flatMap_map, List.flatMap_assoc]
    rw [enumTilePix]
    apply List.flatMap_congr
    intro ty hty
    rw [List.flatMap_map]
    apply List.flatMap_congr
    intro tx htx
    rw [List.mem_range] at htx
    have hx : 8 * (tx + 1) ≤ img.width := by omega
    exact tilePixels_eq img tx ty hx hlen

/-- Sum of a constant map. -/
theorem sum_map_const {α : Type} (l : List α) (c : Nat) :
    (l.map (fun _ => c)).sum = c * l.length := by
  induction l with
  | nil => simp
  | cons a t ih =>
    simp [ih]
    ring

/-- The truncated tile-band heights sum to the image height. -/
theorem sumMin (H : Nat) :
    ((List.range ((H + 7) / 8)).map (fun ty => min 8 (H - 8 * ty))).sum = H := by
  rcases Nat.eq_zero_or_pos ((H + 7) / 8) with hk | hk
  · rw [hk]
    simp
    omega
  · obtain ⟨k, hk1⟩ : ∃ k, (H + 7) / 8 = k + 1 := ⟨(H + 7) / 8 - 1, by omega⟩
    rw [hk1, List.range_succ, List.map_append, List.sum_append]
    have hcongr : (List.range k).map (fun ty => min 8 (H - 8 * ty)) =
        (List.range k).map (fun _ => 8) := by
      apply List.map_congr_left
      intro ty hty
      rw [List.mem_range] at hty
      omega
    rw [hcongr, sum_map_const, List.length_range]
    simp
    omega

/-- The tile-major enumeration covers every pixel exactly once. -/
theorem enumTilePix_length (img : GBAImage) (hw8 : img.width % 8 = 0) :
    (enumTilePix img).length = img.width * img.height := by
  rw [enumTilePix, List.length_flatMap]
  have hmap : (List.range ((img.height + 7) / 8)).map
      (List.length ∘ fun ty => (List.range (img.width / 8)).flatMap (fun tx =>
        (List.range (min 8 (img.height - 8 * ty))).flatMap (fun r =>
          (List.range 8).map (fun c =>
            img.data.getD ((8 * ty + r) * img.width + (8 * tx + c)) 0)))) =
      (List.range ((img.height + 7) / 8)).map
        (fun ty => (img.width / 8 * 8) * min 8 (img.height - 8 * ty)) := by
    apply List.map_congr_left
    intro ty _
    show ((List.range (img.width / 8)).flatMap fun tx =>
        (List.range (min 8 (img.height - 8 * ty))).flatMap (fun r =>
          (List.range 8).map (fun c =>
            img.data.getD ((8 * ty + r) * img.width + (8 * tx + c)) 0))).length = _
    rw [ListHelpers.length_flatMap_const _ _ (min 8 (img.height - 8 * ty) * 8) ?hconst]
    · rw [List.length_range]
      ring
    case hconst =>
      intro tx _
      rw [ListHelpers.length_flatMap_const _ _ 8 (by intro r _; simp)]
      rw [List.length_range]
  rw [hmap, List.sum_map_mul_left, sumMin]
  have h8 : img.width / 8 * 8 = img.width := by omega
  rw [h8]

/-- Packing halves the length (odd tails are dropped). -/
theorem pack2_length : ∀ l : List Nat, (pack2 l).length = l.length / 2
  | [] => by norm_num [pack2]
  | [a] => by norm_num [pack2]
  | a :: b :: rest => by
    have ih := pack2_length rest
    simp only [pack2, List.length_cons, ih]
    omega

/-- Byte `k` of the packed stream combines stream entries `2k` and
`2k + 1`. -/
theorem pack2_getElem? : ∀ (l : List Nat) (k a b : Nat),
    l[2 * k]? = some a → l[2 * k + 1]? = some b →
    (pack2 l)[k]? = some (((a &&& 15) ||| ((b &&& 15) <<< 4)) % 256)
  | [], k, a, b, ha, hb => by simp at ha
  | [x], k, a, b, ha, hb => by
    have h1 : (1 : Nat) ≤ 2 * k + 1 := by omega
    have : ([x] : List Nat)[2 * k + 1]? = none := by
      apply List.getElem?_eq_none
      simp only [List.length_singleton]
      omega
    rw [this] at hb
    simp at hb
  | x :: y :: rest, k, a, b, ha, hb => by
    rcases k with _ | k2
    · simp at ha hb
      rw [← ha, ← hb]
      simp [pack2]
    · have e1 : 2 * (k2 + 1) = 2 * k2 + 1 + 1 := by ring
      rw [e1, List.getElem?_cons_succ, List.getElem?_cons_succ] at ha
      have e2 : 2 * (k2 + 1) + 1 = 2 * k2 + 1 + 1 + 1 := by ring
      rw [e2, List.getElem?_cons_succ, List.getElem?_cons_succ] at hb
      have ih := pack2_getElem? rest k2 a b ha hb
      show (pack2 (x :: y :: rest))[k2 + 1]? = _
      simp only [pack2, List.getElem?_cons_succ]
      exact ih

/-- Facts recovered from a successful tilemage `validate`. -/
theorem validateImage_ok_facts (img : GBAImage) (hv : validateImage img = Except.ok ()) :
    img.data.length = img.width * img.height ∧ (∀ i ∈ img.data, i ≤ 15) := by
  rw [validateImage] at hv
  by_cases h1 : img.data.length ≠ img.width * img.height
  · rw [if_pos h1] at hv
    exact absurd hv (by simp)
  · rw [if_neg h1] at hv
    by_cases h2 : img.width % 8 ≠ 0 ∧ img.height % 8 ≠ 0
    · rw [if_pos h2] at hv
      exact absurd hv (by simp)
    · rw [if_neg h2] at hv
      by_cases h3 : ((img.data.find? (fun idx => 15 < idx)).isSome) = true
      · rw [if_pos h3] at hv
        exact absurd hv (by simp)
      · refine ⟨by omega, ?_⟩
        intro i hi
        rw [List.find?_isSome] at h3
        by_contra hgt
        exact h3 ⟨i, hi, by simpa using (by omega : 15 < i)⟩

/-- An in-range `getD` produces a member of the list. -/
theorem getD_mem {l : List Nat} {i : Nat} (h : i < l.length) : l.getD i 0 ∈ l := by
  rw [List.getD_eq_getElem?_getD, List.getElem?_eq_getElem h]
  exact List.getElem_mem h

/-- Every enumerated pixel value comes from the image buffer. -/
theorem enumTilePix_mem (img : GBAImage) (hw8 : img.width % 8 = 0)
    (hlen : img.data.length = img.width * img.height) :
    ∀ xv ∈ enumTilePix img, xv ∈ img.data := by
  intro xv hxv
  rw [enumTilePix] at hxv
  rw [List.mem_flatMap] at hxv
  obtain ⟨ty, hty, hxv⟩ := hxv
  rw [List.mem_flatMap] at hxv
  obtain ⟨tx, htx, hxv⟩ := hxv
  rw [List.mem_flatMap] at hxv
  obtain ⟨r, hr, hxv⟩ := hxv
  rw [List.mem_map] at hxv
  obtain ⟨c, hc, he⟩ := hxv
  rw [List.mem_range] at hty htx hr hc
  rw [← he]
  apply getD_mem
  rw [hlen]
  have hty2 : 8 * ty + r < img.height := by omega
  have htx2 : 8 * tx + c < img.width := by omega
  have h1 : (8 * ty + r + 1) * img.width ≤ img.height * img.width :=
    Nat.mul_le_mul_right _ (by omega)
  rw [Nat.succ_mul] at h1
  rw [Nat.mul_comm img.width img.height]
  omega



/-- Claim C2, amended: for every validated image whose *width* is a multiple
of 8, `encode_tiles(image.tiles())` has length exactly `(width × height) / 2`
and byte `k` packs pixel `2k` of the tile-major enumeration in its low nibble
and pixel `2k + 1` in its high nibble (the byte value is `a + 16 * b` with
both pixels at most 15).  Validated images whose width is *not* a multiple of
8 (legal when the height is one) break the length claim: the tile pixel
iterator stops at the first out-of-bounds column, see the counterexample. -/
theorem encode_tiles_spec (img : GBAImage) (hw8 : img.width % 8 = 0)
    (hv : validateImage img = Except.ok ()) :
    (encodeTiles img).length = img.width * img.height / 2 ∧
    (∀ k, k < img.width * img.height / 2 →
      ∃ a b, (enumTilePix img)[2 * k]? = some a ∧ (enumTilePix img)[2 * k + 1]? = some b ∧
        a ≤ 15 ∧ b ≤ 15 ∧ (encodeTiles img)[k]? = some (a + 16 * b)) := by
  obtain ⟨hlen, hbound⟩ := validateImage_ok_facts img hv
  have hE : encodeTiles img = pack2 (enumTilePix img) := by
    rw [encodeTiles, stream_eq img hw8 hlen]
  have hlenE : (enumTilePix img).length = img.width * img.height :=
    enumTilePix_length img hw8
  constructor
  · rw [hE, pack2_length, hlenE]
  · intro k hk
    have h2k : 2 * k + 1 < (enumTilePix img).length := by
      rw [hlenE]
      omega
    have h2k0 : 2 * k < (enumTilePix img).length := by omega
    have ha : (enumTilePix img)[2 * k] ≤ 15 :=
      hbound _ (enumTilePix_mem img hw8 hlen _ (List.getElem_mem h2k0))
    have hb : (enumTilePix img)[2 * k + 1] ≤ 15 :=
      hbound _ (enumTilePix_mem img hw8 hlen _ (List.getElem_mem h2k))
    refine ⟨(enumTilePix img)[2 * k], (enumTilePix img)[2 * k + 1],
      List.getElem?_eq_getElem h2k0, List.getElem?_eq_getElem h2k, ha, hb, ?_⟩
    rw [hE, pack2_getElem? (enumTilePix img) k _ _ (List.getElem?_eq_getElem h2k0)
      (List.getElem?_eq_getElem h2k)]
    have hbyte : (((enumTilePix img)[2 * k] &&& 15) |||
        (((enumTilePix img)[2 * k + 1] &&& 15) <<< 4)) % 256 =
        (enumTilePix img)[2 * k] + 16 * (enumTilePix img)[2 * k + 1] := by
      rw [NatBits.and15, NatBits.and15, Nat.shiftLeft_eq]
      norm_num
      have hor := NatBits.or_add_two_pow 4 ((enumTilePix img)[2 * k] % 16)
        ((enumTilePix img)[2 * k + 1] % 16) (by omega)
      norm_num at hor
      rw [hor]
      omega
    rw [hbyte]

/-- A 4×8 all-zero image: it passes `validate` because its height is a
multiple of 8. -/
def img4x8 : GBAImage := ⟨[⟨0, 0, 0⟩], 4, 8, List.replicate 32 0⟩

/-- Claim C2, counterexample: the validated 4×8 image should encode to
`4 * 8 / 2 = 16` bytes by the claim, but its single truncated tile yields
only 4 pixels (the pixel iterator halts at the first out-of-bounds column of
the 8-wide tile view, discarding the remaining rows), so `encode_tiles`
returns 2 bytes. -/
theorem encode_tiles_length_cex :
    validateImage img4x8 = Except.ok () ∧ (encodeTiles img4x8).length = 2 ∧
    img4x8.width * img4x8.height / 2 = 16 := by decide

/-- An 8×1 strip with distinct pixel indices (width divisible by 8). -/
def img8x1 : GBAImage := ⟨[⟨0, 0, 0⟩], 8, 1, [0, 1, 2, 3, 4, 5, 6, 7]⟩

/-- Witness for `encode_tiles_spec` at the concrete 8×1 strip. -/
theorem encode_tiles_spec_witness :
    img8x1.width % 8 = 0 ∧ validateImage img8x1 = Except.ok () ∧
    ((encodeTiles img8x1).length = img8x1.width * img8x1.height / 2 ∧
     (∀ k, k < img8x1.width * img8x1.height / 2 →
       ∃ a b, (enumTilePix img8x1)[2 * k]? = some a ∧
         (enumTilePix img8x1)[2 * k + 1]? = some b ∧
         a ≤ 15 ∧ b ≤ 15 ∧ (encodeTiles img8x1)[k]? = some (a + 16 * b))) :=
  ⟨by decide, by decide, encode_tiles_spec img8x1 (by decide) (by decide)⟩

end Tilemage

namespace GbaLz77


/-- Modelled from the spec: the `gbalz77` crate is consumed as an external
dependency and its sources are not under `src/`; section 4.1 of the spec
defines the codec.  The two compression strategies of `compress`. -/
inductive Strategy where
  | checkMostRecentOnly
  | checkAllCandidates
deriving DecidableEq

/-- Modelled from the spec: the diagnostics that `decompress` can report
(truncated input, bad `0x10` header byte, unexpected end of stream, and a
back-reference pointing before the start of the output). -/
inductive Diag where
  | dataTooShort
  | badHeader
  | unexpectedEof (what : String)
  | badReference (blockIndex backIndex : Nat)
deriving DecidableEq

/-- Decoder state threaded through one flag-byte group: output so far,
diagnostics, remaining input, running block index, and an end-of-input flag. -/
structure DecSt where
  out : List Nat
  ds : List Diag
  inp : List Nat
  blk : Nat
  eof : Bool
deriving DecidableEq

/-- Modelled from the spec: copy `n` bytes one at a time from `backoff`
positions before the end of the output, appending each to the output (so
overlapping references re-read freshly written bytes). -/
def refRead (out : List Nat) (backoff : Nat) : Nat → List Nat
  | 0 => out
  | n+1 => refRead (out ++ [out.getD (out.length - backoff) 0]) backoff n

/-- Modelled from the spec: decode one flag-byte group.  `bits` counts the
remaining flag bits, read most-significant first; a 0 bit copies a literal
byte, a 1 bit reads a 2-byte reference with length `hi-nibble + 3` and
backward offset `low-nibble * 256 + second-byte + 1`.  Decoding stops once
`L` output bytes exist.  An out-of-range reference emits `badReference` and
writes zeros. -/
def decodeGroup (L : Nat) : Nat → Nat → Nat → List Nat → List Nat → List Diag → DecSt
  | blk, 0, _, inp, out, ds => ⟨out, ds, inp, blk, false⟩
  | blk, bits+1, flag, inp, out, ds =>
    if L ≤ out.length then ⟨out, ds, inp, blk, false⟩
    else if (flag >>> bits) % 2 = 0 then
      match inp with
      | [] => ⟨out, ds ++ [Diag.unexpectedEof "literal"], [], blk, true⟩
      | b :: rest => decodeGroup L (blk + 1) bits flag rest (out ++ [b]) ds
    else
      match inp with
      | b0 :: b1 :: rest =>
        if out.length < (b0 % 16) * 256 + b1 + 1 then
          decodeGroup L (blk + 1) bits flag rest
            (out ++ List.replicate (b0 / 16 + 3) 0)
            (ds ++ [Diag.badReference blk ((b0 % 16) * 256 + b1 + 1)])
        else
          decodeGroup L (blk + 1) bits flag rest
            (refRead out ((b0 % 16) * 256 + b1 + 1) (b0 / 16 + 3)) ds
      | _ => ⟨out, ds ++ [Diag.unexpectedEof "backref"], [], blk, true⟩

/-- Modelled from the spec: the outer decompression loop, one flag byte and
its group per iteration until `L` output bytes have been produced.  The fuel
is bounded by the input length, which strictly decreases each round. -/
def decompressBlocks (L : Nat) : Nat → Nat → List Nat → List Nat → List Diag →
    List Nat × List Diag
  | 0, _, _, out, ds => (out, ds)
  | fuel+1, blk, inp, out, ds =>
    if L ≤ out.length then (out, ds)
    else
      match inp with
      | [] => (out, ds ++ [Diag.unexpectedEof "flag byte"])
      | flag :: rest =>
        let st := decodeGroup L blk 8 flag rest out ds
        if st.eof then (st.out, st.ds)
        else decompressBlocks L fuel st.blk st.inp st.out st.ds

/-- Modelled from the spec: `gbalz77::decompress`.  The 4-byte header must
start with `0x10`; the next three bytes hold the uncompressed length,
little-endian (24 bits). -/
def decompress (inp : List Nat) : List Nat × List Diag :=
  match inp with
  | b0 :: l0 :: l1 :: l2 :: rest =>
    if b0 ≠ 16 then ([], [Diag.badHeader])
    else decompressBlocks (l0 + 256 * l1 + 65536 * l2) (rest.length + 1) 0 rest [] []
  | _ => ([], [Diag.dataTooShort])

/-- Modelled from the spec: a compression token, either a literal byte or a
back-reference of length 3..18 at offset 1..4096. -/
inductive Token where
  | lit (b : Nat)
  | ref (len off : Nat)
deriving DecidableEq

def Token.isRef : Token → Bool
  | Token.lit _ => false
  | Token.ref _ _ => true

/-- Modelled from the spec: the byte encoding of one token; a reference packs
`len - 3` in the high nibble of its first byte and `off - 1` in the remaining
12 bits. -/
def tokenBytes : Token → List Nat
  | Token.lit b => [b]
  | Token.ref len off => [((len - 3) <<< 4) ||| ((off - 1) >>> 8), (off - 1) &&& 255]

/-- Modelled from the spec: the flag byte of a group of at most `k` tokens,
most-significant bit first, bit set exactly for references. -/
def flagBits : List Token → Nat → Nat
  | [], _ => 0
  | t :: ts, k => (if t.isRef then 2 ^ (k - 1) else 0) + flagBits ts (k - 1)

/-- Modelled from the spec: lay out the token stream in groups of eight,
each preceded by its flag byte. -/
def serialize : List Token → List Nat
  | [] => []
  | t :: ts =>
    flagBits ((t :: ts).take 8) 8 ::
      (((t :: ts).take 8).flatMap tokenBytes ++ serialize ((t :: ts).drop 8))
termination_by ts => ts.length
decreasing_by
  simp
  omega

/-- Modelled from the spec: the length of the common run of `x` starting at
candidate position `a` and at the current position `i`, capped by the fuel;
`compress` caps it at `min 18 (remaining input)`. -/
def mlen (x : List Nat) : Nat → Nat → Nat → Nat
  | _, _, 0 => 0
  | a, i, fuel+1 =>
    if i < x.length ∧ x.getD a 0 = x.getD i 0 then 1 + mlen x (a + 1) (i + 1) fuel
    else 0

/-- Modelled from the spec: the candidate start positions for a match ending
at `i` - every earlier position within the 4096-byte window whose byte equals
the current byte, in increasing order. -/
def candList (x : List Nat) (i : Nat) : List Nat :=
  (List.range i).filter (fun a => i ≤ a + 4096 ∧ x.getD a 0 = x.getD i 0)

/-- Modelled from the spec: the fold step of `CheckAllCandidates` - keep the
candidate with the longest match, later candidates winning ties. -/
def bestFoldF (x : List Nat) (i cap : Nat) (acc : Option (Nat × Nat)) (a : Nat) :
    Option (Nat × Nat) :=
  match acc with
  | none => some (mlen x a i cap, a)
  | some (bl, _) => if bl ≤ mlen x a i cap then some (mlen x a i cap, a) else acc

/-- Modelled from the spec: choose a match for position `i`:
`CheckMostRecentOnly` considers only the most recent candidate,
`CheckAllCandidates` folds over all of them; a match shorter than 3 is
discarded.  Returns the pair (length, backward offset). -/
def bestMatch (x : List Nat) (s : Strategy) (i : Nat) : Option (Nat × Nat) :=
  match s with
  | Strategy.checkMostRecentOnly =>
    match (candList x i).getLast? with
    | none => none
    | some a =>
      if 3 ≤ mlen x a i (min 18 (x.length - i)) then
        some (mlen x a i (min 18 (x.length - i)), i - a)
      else none
  | Strategy.checkAllCandidates =>
    match (candList x i).foldl (bestFoldF x i (min 18 (x.length - i))) none with
    | none => none
    | some (l, a) => if 3 ≤ l then some (l, i - a) else none

/-- Modelled from the spec: the tokenizer loop; emit a reference when
`bestMatch` finds one, otherwise a literal, and advance accordingly. -/
def tokenizeFrom (x : List Nat) (s : Strategy) : Nat → Nat → List Token
  | 0, _ => []
  | fuel+1, i =>
    if x.length ≤ i then []
    else
      match bestMatch x s i with
      | none => Token.lit (x.getD i 0) :: tokenizeFrom x s fuel (i + 1)
      | some (len, off) => Token.ref len off :: tokenizeFrom x s fuel (i + len)

/-- Modelled from the spec: tokenize the whole buffer; `x.length` fuel
suffices because every token advances the position. -/
def tokenize (x : List Nat) (s : Strategy) : List Token := tokenizeFrom x s x.length 0

/-- Modelled from the spec: `gbalz77::compress` - the `0x10` header with the
24-bit little-endian uncompressed length, then the serialized tokens. -/
def compress (x : List Nat) (s : Strategy) : List Nat :=
  16 :: x.length % 256 :: x.length / 256 % 256 :: x.length / 65536 % 256 ::
    serialize (tokenize x s)

end GbaLz77

namespace GbaLz77

/-- The position reached after consuming one token at position `i`. -/
def nextPos (i : Nat) : Token → Nat
  | Token.lit _ => i + 1
  | Token.ref len _ => i + len

/-- Validity of one token at position `i` of the buffer `x`: a literal
carries the byte at `i`; a reference stays in range and every referenced byte
matches the byte it stands for. -/
def TokOK (x : List Nat) (i : Nat) : Token → Prop
  | Token.lit b => i < x.length ∧ b = x.getD i 0
  | Token.ref len off => 3 ≤ len ∧ len ≤ 18 ∧ 1 ≤ off ∧ off ≤ 4096 ∧ off ≤ i ∧
      i + len ≤ x.length ∧ ∀ j < len, x.getD (i - off + j) 0 = x.getD (i + j) 0

/-- Validity of a token run: starting at `i`, the tokens are valid in turn
and end exactly at position `j`. -/
def RunOK (x : List Nat) : Nat → List Token → Nat → Prop
  | i, [], j => j = i
  | i, t :: ts, j => TokOK x i t ∧ RunOK x (nextPos i t) ts j

theorem mlen_le (x : List Nat) : ∀ fuel a i, mlen x a i fuel ≤ fuel := by
  intro fuel
  induction fuel with
  | zero => intro a i; exact Nat.le_refl 0
  | succ n ih =>
    intro a i
    rw [mlen]
    split
    · have := ih (a + 1) (i + 1)
      omega
    · omega

theorem mlen_match (x : List Nat) :
    ∀ fuel a i j, j < mlen x a i fuel → x.getD (a + j) 0 = x.getD (i + j) 0 := by
  intro fuel
  induction fuel with
  | zero => intro a i j h; simp [mlen] at h
  | succ n ih =>
    intro a i j h
    rw [mlen] at h
    by_cases hc : i < x.length ∧ x.getD a 0 = x.getD i 0
    · rw [if_pos hc] at h
      rcases j with _ | j2
      · simpa using hc.2
      · have hrec := ih (a + 1) (i + 1) j2 (by omega)
        have e1 : a + 1 + j2 = a + (j2 + 1) := by omega
        have e2 : i + 1 + j2 = i + (j2 + 1) := by omega
        rw [e1, e2] at hrec
        exact hrec
    · rw [if_neg hc] at h
      omega

theorem candList_mem (x : List Nat) (i a : Nat) (h : a ∈ candList x i) :
    a < i ∧ i ≤ a + 4096 := by
  rw [candList, List.mem_filter] at h
  obtain ⟨h1, h2⟩ := h
  rw [List.mem_range] at h1
  simp at h2
  exact ⟨h1, h2.1⟩

theorem getLast?_mem {α : Type} {l : List α} {a : α} (h : l.getLast? = some a) : a ∈ l := by
  rw [List.getLast?_eq_some_iff] at h
  obtain ⟨ys, hys⟩ := h
  rw [hys]
  simp

theorem foldl_best_mem (x : List Nat) (i cap : Nat) :
    ∀ (L : List Nat) (acc : Option (Nat × Nat)) (l a : Nat),
    L.foldl (bestFoldF x i cap) acc = some (l, a) →
    acc = some (l, a) ∨ (a ∈ L ∧ l = mlen x a i cap) := by
  intro L
  induction L with
  | nil => intro acc l a h; exact Or.inl h
  | cons a2 t ih =>
    intro acc l a h
    rw [List.foldl_cons] at h
    rcases ih _ l a h with hacc | hmem
    · rcases acc with _ | ⟨bl, ba⟩
      · rw [bestFoldF] at hacc
        simp at hacc
        exact Or.inr ⟨by rw [hacc.2]; exact List.mem_cons_self _ _, by rw [← hacc.1, hacc.2]⟩
      · by_cases hle : bl ≤ mlen x a2 i cap
        · rw [show bestFoldF x i cap (some (bl, ba)) a2 =
              if bl ≤ mlen x a2 i cap then some (mlen x a2 i cap, a2)
              else some (bl, ba) from rfl, if_pos hle] at hacc
          simp at hacc
          exact Or.inr ⟨by rw [hacc.2]; exact List.mem_cons_self _ _, by rw [← hacc.1, hacc.2]⟩
        · rw [show bestFoldF x i cap (some (bl, ba)) a2 =
              if bl ≤ mlen x a2 i cap then some (mlen x a2 i cap, a2)
              else some (bl, ba) from rfl, if_neg hle] at hacc
          exact Or.inl hacc
    · exact Or.inr ⟨List.mem_cons_of_mem _ hmem.1, hmem.2⟩

theorem bestMatch_common (x : List Nat) (i len off a : Nat) (hi : i ≤ x.length)
    (ha : a ∈ candList x i) (hl : len = mlen x a i (min 18 (x.length - i)))
    (ho : off = i - a) (h3 : 3 ≤ len) :
    3 ≤ len ∧ len ≤ 18 ∧ 1 ≤ off ∧ off ≤ 4096 ∧ off ≤ i ∧ i + len ≤ x.length ∧
    ∀ j < len, x.getD (i - off + j) 0 = x.getD (i + j) 0 := by
  obtain ⟨ha1, ha2⟩ := candList_mem x i a ha
  have hml := mlen_le x (min 18 (x.length - i)) a i
  refine ⟨h3, by omega, by omega, by omega, by omega, by omega, ?_⟩
  intro j hj
  have hia : i - off = a := by omega
  rw [hia]
  exact mlen_match x (min 18 (x.length - i)) a i j (by omega)

theorem bestMatch_spec (x : List Nat) (s : Strategy) (i len off : Nat)
    (hi : i ≤ x.length) (h : bestMatch x s i = some (len, off)) :
    3 ≤ len ∧ len ≤ 18 ∧ 1 ≤ off ∧ off ≤ 4096 ∧ off ≤ i ∧ i + len ≤ x.length ∧
    ∀ j < len, x.getD (i - off + j) 0 = x.getD (i + j) 0 := by
  cases s with
  | checkMostRecentOnly =>
    rw [bestMatch] at h
    cases hg : (candList x i).getLast? with
    | none => rw [hg] at h; simp at h
    | some a =>
      rw [hg] at h
      dsimp only at h
      by_cases h3 : 3 ≤ mlen x a i (min 18 (x.length - i))
      · rw [if_pos h3] at h
        simp at h
        exact bestMatch_common x i len off a hi (getLast?_mem hg) h.1.symm h.2.symm (by omega)
      · rw [if_neg h3] at h
        simp at h
  | checkAllCandidates =>
    rw [bestMatch] at h
    cases hf : (candList x i).foldl (bestFoldF x i (min 18 (x.length - i))) none with
    | none => rw [hf] at h; simp at h
    | some p =>
      rcases p with ⟨l, a⟩
      rw [hf] at h
      dsimp only at h
      by_cases h3 : 3 ≤ l
      · rw [if_pos h3] at h
        simp at h
        rcases foldl_best_mem x i (min 18 (x.length - i)) (candList x i) none l a hf with hc | hc
        · simp at hc
        · exact bestMatch_common x i len off a hi hc.1 (by rw [← h.1]; exact hc.2)
            h.2.symm (by omega)
      · rw [if_neg h3] at h
        simp at h

theorem tokenizeFrom_ok (x : List Nat) (s : Strategy) :
    ∀ fuel i, i ≤ x.length → x.length ≤ i + fuel →
    RunOK x i (tokenizeFrom x s fuel i) x.length := by
  intro fuel
  induction fuel with
  | zero =>
    intro i h1 h2
    show x.length = i
    omega
  | succ n ih =>
    intro i h1 h2
    rw [tokenizeFrom]
    by_cases hend : x.length ≤ i
    · rw [if_pos hend]
      show x.length = i
      omega
    · rw [if_neg hend]
      cases hbm : bestMatch x s i with
      | none =>
        exact ⟨⟨by omega, rfl⟩, ih (i + 1) (by omega) (by omega)⟩
      | some p =>
        rcases p with ⟨len, off⟩
        obtain ⟨hb1, hb2, hb3, hb4, hb5, hb6, hb7⟩ :=
          bestMatch_spec x s i len off (by omega) hbm
        exact ⟨⟨hb1, hb2, hb3, hb4, hb5, hb6, hb7⟩, ih (i + len) (by omega) (by omega)⟩

end GbaLz77

namespace GbaLz77

theorem take_getD (x : List Nat) (i j : Nat) (h : j < i) :
    (x.take i).getD j 0 = x.getD j 0 := by
  rw [List.getD_eq_getElem?_getD, List.getD_eq_getElem?_getD]
  by_cases hj : j < x.length
  · have h1 : j < (x.take i).length := by rw [List.length_take]; omega
    rw [List.getElem?_eq_getElem h1, List.getElem?_eq_getElem hj]
    simp [List.getElem_take]
  · have h1 : (x.take i).length ≤ j := by rw [List.length_take]; omega
    rw [List.getElem?_eq_none h1, List.getElem?_eq_none (by omega)]

theorem take_concat (x : List Nat) (i : Nat) (h : i < x.length) :
    x.take i ++ [x.getD i 0] = x.take (i + 1) := by
  rw [List.take_succ, List.getElem?_eq_getElem h]
  rw [List.getD_eq_getElem?_getD, List.getElem?_eq_getElem h]
  rfl

theorem flagBits_lt : ∀ (g : List Token) (k : Nat), g.length ≤ k → flagBits g k < 2 ^ k := by
  intro g
  induction g with
  | nil => intro k _; rw [flagBits]; exact Nat.pos_pow_of_pos k (by omega)
  | cons t ts ih =>
    intro k hk
    cases k with
    | zero => simp at hk
    | succ m =>
      rw [flagBits]
      simp only [Nat.add_sub_cancel]
      have h1 : ts.length ≤ m := by simp at hk; omega
      have h2 := ih m h1
      have h3 : 2 ^ (m + 1) = 2 ^ m + 2 ^ m := by rw [pow_succ]; omega
      by_cases hr : t.isRef
      · rw [if_pos hr]; omega
      · rw [if_neg hr]; omega

theorem extract_bit (P flag b F : Nat) (hP : 0 < P) (hF : F < P) (hb : b ≤ 1)
    (h2 : flag % (P * 2) = b * P + F) :
    flag / P % 2 = b ∧ flag % P = F := by
  have hx : flag = P * (2 * (flag / (P * 2)) + b) + F := by
    calc flag = P * 2 * (flag / (P * 2)) + flag % (P * 2) :=
          (Nat.div_add_mod flag (P * 2)).symm
    _ = P * 2 * (flag / (P * 2)) + (b * P + F) := by rw [h2]
    _ = P * (2 * (flag / (P * 2)) + b) + F := by ring
  constructor
  · conv_lhs => rw [hx]
    rw [Nat.mul_add_div hP, Nat.div_eq_of_lt hF]
    omega
  · conv_lhs => rw [hx]
    rw [Nat.mul_add_mod]
    exact Nat.mod_eq_of_lt hF

theorem flag_extract (t : Token) (ts : List Token) (flag k : Nat)
    (hk : ts.length ≤ k) (h : flag % 2 ^ (k + 1) = flagBits (t :: ts) (k + 1)) :
    (flag >>> k) % 2 = (if t.isRef then 1 else 0) ∧ flag % 2 ^ k = flagBits ts k := by
  have hP : 0 < 2 ^ k := Nat.pos_pow_of_pos k (by omega)
  have hF : flagBits ts k < 2 ^ k := flagBits_lt ts k hk
  rw [flagBits] at h
  simp only [Nat.add_sub_cancel] at h
  have hb : (if t.isRef then (1 : Nat) else 0) ≤ 1 := by split <;> omega
  have h2 : flag % (2 ^ k * 2) =
      (if t.isRef then (1 : Nat) else 0) * 2 ^ k + flagBits ts k := by
    rw [show 2 ^ k * 2 = 2 ^ (k + 1) from (pow_succ 2 k).symm, h]
    split <;> omega
  obtain ⟨g1, g2⟩ := extract_bit (2 ^ k) flag _ _ hP hF hb h2
  refine ⟨?_, g2⟩
  rw [Nat.shiftRight_eq_div_pow]
  exact g1

theorem refBytes_decode (len off : Nat) (h3 : 3 ≤ len) (h18 : len ≤ 18)
    (h1 : 1 ≤ off) (h4096 : off ≤ 4096) :
    (((len - 3) <<< 4) ||| ((off - 1) >>> 8)) / 16 + 3 = len ∧
    ((((len - 3) <<< 4) ||| ((off - 1) >>> 8)) % 16) * 256 + ((off - 1) &&& 255) + 1 = off := by
  have hr : (off - 1) >>> 8 < 2 ^ 4 := by
    rw [Nat.shiftRight_eq_div_pow]
    norm_num
    omega
  have hb0 : ((len - 3) <<< 4) ||| ((off - 1) >>> 8) =
      (off - 1) / 256 + (len - 3) * 16 := by
    rw [Nat.shiftLeft_eq, Nat.lor_comm, NatBits.or_add_two_pow 4 _ _ hr,
      Nat.shiftRight_eq_div_pow]
    norm_num
  rw [hb0, NatBits.and255]
  have hd : (off - 1) / 256 < 16 := by omega
  constructor
  · omega
  · omega

end GbaLz77

namespace GbaLz77

theorem refRead_spec (x : List Nat) (off : Nat) :
    ∀ (len i : Nat), 1 ≤ off → off ≤ i → i + len ≤ x.length →
    (∀ j < len, x.getD (i - off + j) 0 = x.getD (i + j) 0) →
    refRead (x.take i) off len = x.take (i + len) := by
  intro len
  induction len with
  | zero => intro i _ _ _ _; rw [refRead, Nat.add_zero]
  | succ n ih =>
    intro i h1 h2 h3 h4
    rw [refRead]
    have hlen : (x.take i).length = i := by
      rw [List.length_take]; omega
    have hget : (x.take i).getD ((x.take i).length - off) 0 = x.getD i 0 := by
      rw [hlen, take_getD x i (i - off) (by omega)]
      have h0 := h4 0 (by omega)
      simpa using h0
    rw [hget, take_concat x i (by omega)]
    have hrec := ih (i + 1) h1 (by omega) (by omega) (by
      intro j hj
      have := h4 (j + 1) (by omega)
      have he : i + 1 - off + j = i - off + (j + 1) := by omega
      have he2 : i + 1 + j = i + (j + 1) := by omega
      rw [he, he2]
      exact this)
    rw [hrec]
    have : i + 1 + n = i + (n + 1) := by omega
    rw [this]

theorem RunOK_le (x : List Nat) : ∀ (ts : List Token) (i j : Nat),
    RunOK x i ts j → i ≤ j := by
  intro ts
  induction ts with
  | nil => intro i j h; exact Nat.le_of_eq h.symm
  | cons t tl ih =>
    intro i j h
    obtain ⟨h1, h2⟩ := h
    have := ih (nextPos i t) j h2
    cases t with
    | lit b => simp only [nextPos] at this; omega
    | ref len off => simp only [nextPos] at this; obtain ⟨h3, _⟩ := h1; omega

theorem RunOK_split (x : List Nat) : ∀ (ts1 ts2 : List Token) (i j : Nat),
    RunOK x i (ts1 ++ ts2) j → ∃ m, RunOK x i ts1 m ∧ RunOK x m ts2 j := by
  intro ts1
  induction ts1 with
  | nil => intro ts2 i j h; exact ⟨i, rfl, h⟩
  | cons t tl ih =>
    intro ts2 i j h
    obtain ⟨h1, h2⟩ := h
    obtain ⟨m, hm1, hm2⟩ := ih ts2 (nextPos i t) j h2
    exact ⟨m, ⟨h1, hm1⟩, hm2⟩

theorem tokenBytes_length_pos (t : Token) : 1 ≤ (tokenBytes t).length := by
  cases t with
  | lit b => rw [tokenBytes]; simp
  | ref len off => rw [tokenBytes]; simp

theorem flatMap_tokenBytes_length_ge : ∀ (g : List Token),
    g.length ≤ (g.flatMap tokenBytes).length := by
  intro g
  induction g with
  | nil => simp
  | cons t tl ih =>
    rw [List.flatMap_cons, List.length_append, List.length_cons]
    have := tokenBytes_length_pos t
    omega

theorem serialize_length_ge : ∀ (n : Nat) (ts : List Token), ts.length ≤ n →
    ts.length ≤ (serialize ts).length := by
  intro n
  induction n with
  | zero =>
    intro ts h
    cases ts with
    | nil => simp [serialize]
    | cons t tl => simp at h
  | succ m ih =>
    intro ts h
    cases ts with
    | nil => simp [serialize]
    | cons t tl =>
      have hfm := flatMap_tokenBytes_length_ge ((t :: tl).take 8)
      have hih := ih ((t :: tl).drop 8) (by
        rw [List.length_drop]
        simp only [List.length_cons] at h ⊢
        omega)
      rw [serialize]
      simp only [List.length_cons, List.length_append, List.length_take,
        List.length_drop] at hfm hih ⊢
      omega

end GbaLz77

namespace GbaLz77

theorem decodeGroup_run (x : List Nat) : ∀ (k : Nat) (g : List Token) (i j flag blk : Nat)
    (r : List Nat) (ds : List Diag),
    RunOK x i g j → g.length ≤ k → flag % 2 ^ k = flagBits g k →
    (g.length = k ∨ j = x.length) → j ≤ x.length →
    decodeGroup x.length blk k flag (g.flatMap tokenBytes ++ r) (x.take i) ds =
      ⟨x.take j, ds, r, blk + g.length, false⟩ := by
  intro k
  induction k with
  | zero =>
    intro g i j flag blk r ds hrun hlen _ _ _
    have hg : g = [] := List.length_eq_zero.mp (by omega)
    subst hg
    have hij : j = i := hrun
    subst hij
    simp [decodeGroup.eq_def]
  | succ k ih =>
    intro g i j flag blk r ds hrun hlen hflag hlast hj
    cases g with
    | nil =>
      have hij : j = i := hrun
      have hjx : j = x.length := by
        rcases hlast with h | h
        · simp at h
        · exact h
      rw [decodeGroup.eq_def]
      dsimp only
      rw [if_pos (by rw [List.length_take]; omega)]
      simp [hij]
    | cons t ts =>
      have hi_lt : i < x.length := by
        obtain ⟨h1, _⟩ := hrun
        cases t with
        | lit b => exact h1.1
        | ref len off =>
          obtain ⟨h3, _, _, _, _, h6, _⟩ := h1
          omega
      have hts : ts.length ≤ k := by simp only [List.length_cons] at hlen; omega
      obtain ⟨hbit, hflag2⟩ := flag_extract t ts flag k hts hflag
      obtain ⟨htok, hrest⟩ := hrun
      have hlast2 : ts.length = k ∨ j = x.length := by
        rcases hlast with h | h
        · left; simp only [List.length_cons] at h; omega
        · right; exact h
      rw [decodeGroup.eq_def]
      dsimp only
      rw [if_neg (by rw [List.length_take]; omega)]
      cases t with
      | lit b =>
        have hbit0 : flag >>> k % 2 = 0 := by simpa using hbit
        rw [if_pos hbit0]
        rw [List.flatMap_cons]
        rw [show tokenBytes (Token.lit b) = [b] from rfl]
        simp only [List.cons_append, List.nil_append]
        obtain ⟨hb1, hb2⟩ := htok
        rw [hb2, take_concat x i hi_lt]
        have hnext : nextPos i (Token.lit b) = i + 1 := rfl
        rw [hnext] at hrest
        rw [ih ts (i + 1) j flag (blk + 1) r ds hrest hts hflag2 hlast2 hj]
        have : blk + 1 + ts.length = blk + (ts.length + 1) := by omega
        rw [this]
        simp
      | ref len off =>
        have hbit1 : flag >>> k % 2 = 1 := by simpa using hbit
        rw [if_neg (by rw [hbit1]; omega)]
        rw [List.flatMap_cons]
        rw [show tokenBytes (Token.ref len off) =
          [((len - 3) <<< 4) ||| ((off - 1) >>> 8), (off - 1) &&& 255] from rfl]
        simp only [List.cons_append, List.nil_append]
        obtain ⟨ht3, ht18, ht1, ht4096, htoff, htfit, htmatch⟩ := htok
        obtain ⟨hd1, hd2⟩ := refBytes_decode len off ht3 ht18 ht1 ht4096
        rw [hd2]
        rw [if_neg (by rw [List.length_take]; omega)]
        rw [hd1]
        rw [refRead_spec x off len i ht1 htoff (by omega) htmatch]
        have hnext : nextPos i (Token.ref len off) = i + len := rfl
        rw [hnext] at hrest
        rw [ih ts (i + len) j flag (blk + 1) r ds hrest hts hflag2 hlast2 hj]
        have : blk + 1 + ts.length = blk + (ts.length + 1) := by omega
        rw [this]
        simp

end GbaLz77

namespace GbaLz77

theorem decompressBlocks_run (x : List Nat) : ∀ (fuel : Nat) (ts : List Token) (i blk : Nat)
    (ds : List Diag), RunOK x i ts x.length → i ≤ x.length → ts.length < fuel →
    decompressBlocks x.length fuel blk (serialize ts) (x.take i) ds = (x, ds) := by
  intro fuel
  induction fuel with
  | zero => intro ts i blk ds _ _ hf; omega
  | succ n ih =>
    intro ts i blk ds hrun hi hf
    cases ts with
    | nil =>
      have hix : x.length = i := hrun
      rw [serialize]
      rw [decompressBlocks.eq_def]
      dsimp only
      rw [if_pos (by rw [List.length_take]; omega)]
      rw [← hix, List.take_length]
    | cons t ts2 =>
      have hi_lt : i < x.length := by
        obtain ⟨h1, _⟩ := hrun
        cases t with
        | lit b => exact h1.1
        | ref len off =>
          obtain ⟨h3, _, _, _, _, h6, _⟩ := h1
          omega
      obtain ⟨m, hm1, hm2⟩ := RunOK_split x ((t :: ts2).take 8) ((t :: ts2).drop 8) i
        x.length (by rw [List.take_append_drop]; exact hrun)
      have hm_le : m ≤ x.length := RunOK_le x ((t :: ts2).drop 8) m x.length hm2
      have htk8 : ((t :: ts2).take 8).length ≤ 8 := by
        rw [List.length_take]; omega
      have hlast8 : ((t :: ts2).take 8).length = 8 ∨ m = x.length := by
        by_cases h8 : 8 ≤ (t :: ts2).length
        · left; rw [List.length_take]; omega
        · right
          rw [List.drop_eq_nil_of_le (by omega)] at hm2
          exact hm2.symm
      have hfl : flagBits ((t :: ts2).take 8) 8 % 2 ^ 8 = flagBits ((t :: ts2).take 8) 8 :=
        Nat.mod_eq_of_lt (flagBits_lt _ 8 htk8)
      have hdg := decodeGroup_run x 8 ((t :: ts2).take 8) i m (flagBits ((t :: ts2).take 8) 8)
        blk (serialize ((t :: ts2).drop 8)) ds hm1 htk8 hfl hlast8 hm_le
      rw [serialize]
      rw [decompressBlocks.eq_def]
      dsimp only
      rw [if_neg (by rw [List.length_take]; omega)]
      rw [hdg]
      dsimp only
      have hrest_lt : ((t :: ts2).drop 8).length < n := by
        rw [List.length_drop]
        simp only [List.length_cons] at hf ⊢
        omega
      exact ih ((t :: ts2).drop 8) m (blk + ((t :: ts2).take 8).length) ds hm2 hm_le hrest_lt

end GbaLz77

namespace GbaLz77

theorem decompress_compress_wrap (x : List Nat) (s : Strategy)
    (hx : x.length = 16777216) :
    decompress (compress x s) = ([], []) := by
  rw [compress, hx]
  norm_num
  rw [decompress]
  norm_num
  rw [decompressBlocks.eq_def]
  dsimp only
  rw [if_pos (Nat.zero_le _)]

/-- Claim C1 (counterexample to the original claim): the LZ77 round-trip does
not hold for every buffer. The 4-byte header stores the uncompressed length in
only 24 bits, so a buffer of 2^24 zero bytes has its length wrapped to 0 in the
compressed header, and decompressing the compressed stream yields the empty
buffer rather than the input. -/
theorem lz77_roundtrip_cex :
    ¬ (∀ (x : List Nat) (s : Strategy), decompress (compress x s) = (x, [])) := by
  intro h
  have ha := h (List.replicate 16777216 0) Strategy.checkMostRecentOnly
  have hb := decompress_compress_wrap (List.replicate 16777216 0)
    Strategy.checkMostRecentOnly (by rw [List.length_replicate])
  rw [hb] at ha
  have hc := congrArg (fun p => p.1.length) ha
  simp only [List.length_nil, List.length_replicate] at hc
  exact absurd hc (by norm_num)

/-- Claim C1 (amended): for every byte buffer whose length fits in the 24-bit
header field and every strategy, decompressing the output of compress yields
exactly the original buffer together with an empty diagnostics list. -/
theorem decompress_compress (x : List Nat) (s : Strategy)
    (hx : x.length < 16777216) :
    decompress (compress x s) = (x, []) := by
  have hrun : RunOK x 0 (tokenize x s) x.length :=
    tokenizeFrom_ok x s x.length 0 (by omega) (by omega)
  have hlen : (tokenize x s).length ≤ (serialize (tokenize x s)).length :=
    serialize_length_ge (tokenize x s).length (tokenize x s) (le_refl _)
  rw [compress, decompress]
  rw [if_neg (by omega)]
  have hL : x.length % 256 + 256 * (x.length / 256 % 256) +
      65536 * (x.length / 65536 % 256) = x.length := by omega
  rw [hL]
  have hmain := decompressBlocks_run x ((serialize (tokenize x s)).length + 1)
    (tokenize x s) 0 0 [] hrun (by omega) (by omega)
  simpa using hmain

/-- Witness for Claim C1 at the concrete buffer [65, 66, 67]. -/
theorem decompress_compress_witness :
    ([65, 66, 67] : List Nat).length < 16777216 ∧
    decompress (compress [65, 66, 67] Strategy.checkAllCandidates) = ([65, 66, 67], []) :=
  ⟨by decide, decompress_compress [65, 66, 67] Strategy.checkAllCandidates (by decide)⟩

end GbaLz77
